import Mathlib

/-!
# Verification of the sprotty client core against its specification

This file gives a shallow embedding of the sprotty client core — the
selection commands (`src/client/src/features/select/select.ts`), the
diagram-server synchronization adapter
(`src/client/src/model-source/diagram-server.ts`) and the action handler
registry — and proves or refutes the specified properties.

The mutable element tree of the client is embedded as a rose tree `RTree`
whose node payload carries the observable attributes of one element.
Mutation of the shared tree becomes explicit state passing: each command
operation takes the current root and returns the new root.
-/

set_option maxHeartbeats 1600000

/-- Generic rose tree used to embed the diagram element trees (both the
resolved `SModel` the commands mutate and the `SModelRootSchema` trees the
diagram server stores). -/
inductive RTree (α : Type) where
  | mk : α → List (RTree α) → RTree α
deriving Repr

/-- The payload of the tree node. -/
def RTree.data {α : Type} : RTree α → α
  | .mk d _ => d

/-- The ordered list of child subtrees of the tree node. -/
def RTree.children {α : Type} : RTree α → List (RTree α)
  | .mk _ cs => cs

mutual

/-- Apply a payload transformation to every node of the tree, keeping the
shape and child order. -/
def RTree.mapData {α : Type} (f : α → α) : RTree α → RTree α
  | .mk d cs => .mk (f d) (RTree.mapDataList f cs)

/-- List version of `RTree.mapData`. -/
def RTree.mapDataList {α : Type} (f : α → α) : List (RTree α) → List (RTree α)
  | [] => []
  | c :: cs => RTree.mapData f c :: RTree.mapDataList f cs

end

mutual

/-- All payloads of the tree in document (preorder) order, root first.
This embeds iteration over the id→element index of a model, whose insertion
order is exactly the preorder traversal of the tree. -/
def RTree.allData {α : Type} : RTree α → List α
  | .mk d cs => d :: RTree.allDataList cs

/-- List version of `RTree.allData`. -/
def RTree.allDataList {α : Type} : List (RTree α) → List α
  | [] => []
  | c :: cs => RTree.allData c ++ RTree.allDataList cs

end

mutual

/-- Embeds `index.getById(id)`: find the (first, in document order) subtree
whose root payload has the given id, where `idf` extracts the id from a
payload.  In a well-formed model ids are unique, so this is the index lookup. -/
def RTree.getById {α : Type} (idf : α → String) (i : String) : RTree α → Option (RTree α)
  | .mk d cs => if idf d = i then some (.mk d cs) else RTree.getByIdList idf i cs

/-- List version of `RTree.getById`. -/
def RTree.getByIdList {α : Type} (idf : α → String) (i : String) : List (RTree α) → Option (RTree α)
  | [] => none
  | c :: cs =>
    match RTree.getById idf i c with
    | some e => some e
    | none => RTree.getByIdList idf i cs

end

/-! ## The resolved SModel used by the selection commands

`select.ts` manipulates resolved model elements: each element has an `id`,
may be an `SNode` or an `SEdge` (with `sourceId`/`targetId`), may support the
`selectable` feature, and carries the mutable `selected` flag.  Child order
inside one parent is observable (it is the paint order). -/

/-- The variant of a resolved model element: `SNode`, `SEdge` (with its
`sourceId` and `targetId`), or any other element class. -/
inductive EKind where
  | node : EKind
  | edge : String → String → EKind
  | other : EKind
deriving DecidableEq, Repr

/-- Observable payload of one resolved model element. `selectable` embeds
`isSelectable` (a static feature of the element class), `selected` is the
mutable flag the selection commands toggle. -/
structure ElemData where
  id : String
  kind : EKind
  selectable : Bool
  selected : Bool
deriving DecidableEq, Repr

/-- A resolved model tree; the root element is the `SModelRoot`. -/
abbrev SElem := RTree ElemData

mutual

/-- The pairs (payload, sibling index) of every element of the tree that is a
child of some parent (i.e. every `SChildElement`, which excludes the root),
in document order.  The sibling index is `element.parent.children.indexOf(element)`.
This embeds what `select.ts` reads off `model.index`: `getById` with the
`instanceof SChildElement` guard, and `index.all()` iteration. -/
def flattenElem : SElem → List (ElemData × Nat)
  | .mk _ cs => flattenChildren 0 cs

/-- List version of `flattenElem`: the entries of the sibling list starting at
index `i`, each child followed by its own descendants. -/
def flattenChildren : Nat → List SElem → List (ElemData × Nat)
  | _, [] => []
  | i, c :: rest => (c.data, i) :: (flattenElem c ++ flattenChildren (i + 1) rest)

end

mutual

/-- The children lists of every node of the tree (the root's own children list
first, then, in document order, the children list of every descendant).  Used
to state per-parent properties of sibling order. -/
def childLists : SElem → List (List SElem)
  | .mk _ cs => cs :: childListsChildren cs

/-- List version of `childLists`. -/
def childListsChildren : List SElem → List (List SElem)
  | [] => []
  | c :: rest => childLists c ++ childListsChildren rest

end

/-- A model tree is well formed when every element id occurs exactly once.
The sprotty data model requires globally unique ids within one diagram. -/
def WellFormed (t : SElem) : Prop := ((RTree.allData t).map ElemData.id).Nodup

/-- Modelled from the spec: `SParentElement.move(child, newIndex)` of the model
base class (`smodel.ts`, not under `src/`): the child is removed from the
sibling list and reinserted at the requested index — "restoring each element to
its originally captured sibling index" / "move every captured selected element
to the end of its parent's child list".  The child is addressed by id; if no
child of this list has the id, the list is unchanged (the move belongs to a
different parent).  As with the JS `splice` the source uses, an index past
the end of the (shortened) list inserts at the end. -/
def moveInList (cid : String) (idx : Nat) (cs : List SElem) : List SElem :=
  match cs.find? (fun c => c.data.id = cid) with
  | none => cs
  | some c =>
    let l1 := cs.eraseP (fun x => x.data.id = cid)
    l1.insertIdx (min idx l1.length) c

/-- A primitive mutation of the element tree, in terms of which the bodies of
`SelectCommand.execute/undo/redo` are expressed:
`setSel i b` is `element.selected = b` for the element with id `i`;
`movIdx i k` is `element.parent.move(element, k)`;
`movEnd i` is `element.parent.move(element, element.parent.children.length - 1)`. -/
inductive PrimOp where
  | setSel : String → Bool → PrimOp
  | movIdx : String → Nat → PrimOp
  | movEnd : String → PrimOp
deriving DecidableEq, Repr

/-- Effect of a primitive mutation on one element payload. -/
def applyPrimData (p : PrimOp) (d : ElemData) : ElemData :=
  match p with
  | .setSel i b => if d.id = i then { d with selected := b } else d
  | _ => d

/-- Effect of a primitive mutation on one sibling list (only the lists of the
parent owning the addressed child are affected; `movEnd` computes
`childrenLength - 1` from the list it fires on, exactly as
`SelectCommand.redo` does). -/
def applyPrimList (p : PrimOp) (cs : List SElem) : List SElem :=
  match p with
  | .setSel _ _ => cs
  | .movIdx i k => moveInList i k cs
  | .movEnd i => moveInList i (cs.length - 1) cs

mutual

/-- Apply one primitive mutation to the whole tree: the payload transformation
at every node, and the sibling-list transformation at every node (it fires
only where the addressed child actually lives). -/
def applyPrim (p : PrimOp) : SElem → SElem
  | .mk d cs => .mk (applyPrimData p d) (applyPrimList p (applyPrimChildren p cs))

/-- List version of `applyPrim`. -/
def applyPrimChildren (p : PrimOp) : List SElem → List SElem
  | [] => []
  | c :: cs => applyPrim p c :: applyPrimChildren p cs

end

/-- Apply a sequence of primitive mutations, left to right — the sequential
execution of the imperative statements. -/
def applyOps (ps : List PrimOp) (t : SElem) : SElem :=
  ps.foldl (fun t p => applyPrim p t) t

/-- Composition of the payload effects of a sequence of mutations. -/
def dataFold (ps : List PrimOp) (d : ElemData) : ElemData :=
  ps.foldl (fun d p => applyPrimData p d) d

/-- Composition of the sibling-list effects of a sequence of mutations. -/
def listFold (ps : List PrimOp) (cs : List SElem) : List SElem :=
  ps.foldl (fun cs p => applyPrimList p cs) cs

/-- The value written by the last `setSel` for id `i` in the sequence, if any. -/
def lastSet (i : String) (ps : List PrimOp) : Option Bool :=
  ps.foldr
    (fun p acc =>
      match acc with
      | some b => some b
      | none =>
        match p with
        | .setSel j b => if j = i then some b else none
        | _ => none)
    none

/-! ## SelectCommand (select.ts lines 29-35, 50-138) -/

/-- `SelectAction`: the ids to select and the ids to deselect. -/
structure SelectAction where
  selectedElementsIDs : List String
  deselectedElementsIDs : List String
deriving DecidableEq, Repr

/-- `ElementSelection` (select.ts lines 50-53): an element captured together
with its sibling index at capture time.  The element is captured as its
payload snapshot; the command only ever reads its identity (`id`) and its
static `selectable` feature from it. -/
structure ElementSelection where
  element : ElemData
  index : Nat
deriving DecidableEq, Repr

/-- The captured state of one `SelectCommand` instance: its `selected` and
`deselected` lists, filled by `execute`. -/
structure SelectCommandState where
  selected : List ElementSelection
  deselected : List ElementSelection
deriving DecidableEq, Repr

/-- One step of the capture loops of `SelectCommand.execute` (select.ts lines
68-78 and 94-102): `model.index.getById(id)`; if the result is an
`SChildElement` supporting `isSelectable`, capture it with
`element.parent.children.indexOf(element)`. -/
def captureOne (t : SElem) (i : String) : Option ElementSelection :=
  match (flattenElem t).find? (fun p => p.1.id = i) with
  | some p => if p.1.selectable then some ⟨p.1, p.2⟩ else none
  | none => none

/-- The ids of the action whose capture succeeded with an `SNode` element —
the `selectedNodeIds` accumulator of `SelectCommand.execute` (lines 66-77). -/
def capturedNodeIds (t : SElem) (ids : List String) : List String :=
  ids.filter fun i =>
    match captureOne t i with
    | some s =>
      match s.element.kind with
      | .node => true
      | _ => false
    | none => false

/-- The `connectedEdges` accumulator of `SelectCommand.execute` (lines 80-92):
every `SEdge` of the index whose `sourceId` or `targetId` is a selected node
id, captured with its sibling index, in index (document) order. -/
def connectedEdges (t : SElem) (nodeIds : List String) : List ElementSelection :=
  (flattenElem t).filterMap fun p =>
    match p.1.kind with
    | .edge src tgt =>
      if nodeIds.contains src || nodeIds.contains tgt then some ⟨p.1, p.2⟩ else none
    | _ => none

/-- The capture phase of `SelectCommand.execute` (select.ts lines 66-102):
capture the selected ids, prepend the connected edges when at least one
selected element is a node, and capture the deselected ids. -/
def captureSelection (a : SelectAction) (t : SElem) : SelectCommandState :=
  let base := a.selectedElementsIDs.filterMap (captureOne t)
  let nodeIds := capturedNodeIds t a.selectedElementsIDs
  let sel := if nodeIds.length > 0 then connectedEdges t nodeIds ++ base else base
  let des := a.deselectedElementsIDs.filterMap (captureOne t)
  ⟨sel, des⟩

/-- The sequence of primitive mutations performed by `SelectCommand.redo`
(select.ts lines 121-137), in program order: move every captured selected
element to the end of its sibling list (captured order), then clear
`selected` on the captured deselected elements, then set `selected` on the
captured selected elements (each flag write guarded by `isSelectable`). -/
def redoOps (st : SelectCommandState) : List PrimOp :=
  st.selected.map (fun s => PrimOp.movEnd s.element.id)
    ++ (st.deselected.filterMap fun s =>
        if s.element.selectable then some (PrimOp.setSel s.element.id false) else none)
    ++ (st.selected.filterMap fun s =>
        if s.element.selectable then some (PrimOp.setSel s.element.id true) else none)

/-- The sequence of primitive mutations performed by `SelectCommand.undo`
(select.ts lines 106-119), in program order: iterate the `selected` list in
reverse, clearing the flag (if selectable) and moving the element back to its
captured index; then iterate the reversed `deselected` list setting the flag
(if selectable). -/
def undoOps (st : SelectCommandState) : List PrimOp :=
  (st.selected.reverse.map fun s =>
      (if s.element.selectable then [PrimOp.setSel s.element.id false] else [])
        ++ [PrimOp.movIdx s.element.id s.index]).flatten
    ++ (st.deselected.reverse.filterMap fun s =>
        if s.element.selectable then some (PrimOp.setSel s.element.id true) else none)

namespace SelectCommand

/-- `SelectCommand.redo` (select.ts lines 121-137) as a function of the
captured state and the current root. -/
def redo (st : SelectCommandState) (t : SElem) : SElem :=
  applyOps (redoOps st) t

/-- `SelectCommand.execute` (select.ts lines 65-104) on a fresh command
instance: fill `selected`/`deselected` by the capture phase, then
`return this.redo(context)`.  Returns the captured state together with the
resulting root. -/
def execute (a : SelectAction) (t : SElem) : SelectCommandState × SElem :=
  let st := captureSelection a t
  (st, redo st t)

/-- `SelectCommand.undo` (select.ts lines 106-119).  Returns the updated
command state together with the resulting root: `this.deselected.reverse()`
mutates the captured array in place, so the state after `undo` carries the
reversed `deselected` list. -/
def undo (st : SelectCommandState) (t : SElem) : SelectCommandState × SElem :=
  (⟨st.selected, st.deselected.reverse⟩, applyOps (undoOps st) t)

end SelectCommand

/-! ## SelectAllCommand (select.ts lines 140-178) -/

/-- `SelectAllAction`: select (`true`) or deselect (`false`) all elements. -/
structure SelectAllAction where
  select : Bool
deriving DecidableEq, Repr

/-- The JS object assignment `previousSelection[id] = v`: overwrite in place
if the key exists, otherwise append (JS objects preserve string-key insertion
order). -/
def dictInsert (k : String) (v : Bool) (d : List (String × Bool)) : List (String × Bool) :=
  if d.any (fun p => p.1 = k) then d.map (fun p => if p.1 = k then (k, v) else p)
  else d ++ [(k, v)]

mutual

/-- `SelectAllCommand.selectAll` (select.ts lines 154-162): walk the tree from
the given element; for every selectable element record its current `selected`
flag in `previousSelection` and overwrite the flag with `newState`; recurse
into the children.  Threads the `previousSelection` dictionary and returns it
with the updated tree. -/
def selectAllElem (v : Bool) (st : List (String × Bool)) : SElem → (List (String × Bool)) × SElem
  | .mk d cs =>
    let st1 := if d.selectable then dictInsert d.id d.selected st else st
    let d1 := if d.selectable then { d with selected := v } else d
    let r := selectAllChildren v st1 cs
    (r.1, .mk d1 r.2)

/-- List version of `selectAllElem`. -/
def selectAllChildren (v : Bool) (st : List (String × Bool)) :
    List SElem → (List (String × Bool)) × List SElem
  | [] => (st, [])
  | c :: rest =>
    let r1 := selectAllElem v st c
    let r2 := selectAllChildren v r1.1 rest
    (r2.1, r1.2 :: r2.2)

end

namespace SelectAllCommand

/-- `SelectAllCommand.execute` (select.ts lines 149-152) on a fresh command
instance (empty `previousSelection`). -/
def execute (a : SelectAllAction) (t : SElem) : (List (String × Bool)) × SElem :=
  selectAllElem a.select [] t

/-- `SelectAllCommand.redo` (select.ts lines 174-177): run `selectAll` again,
threading the existing `previousSelection` dictionary (so it records — and
overwrites — again). -/
def redo (a : SelectAllAction) (st : List (String × Bool)) (t : SElem) :
    (List (String × Bool)) × SElem :=
  selectAllElem a.select st t

/-- `SelectAllCommand.undo` (select.ts lines 164-172): for each recorded id
(insertion order), look it up in the index and, when it resolves to a
selectable element, restore the recorded flag. -/
def undo (st : List (String × Bool)) (t : SElem) : SElem :=
  st.foldl
    (fun t p =>
      match RTree.getById ElemData.id p.1 t with
      | some e => if e.data.selectable then applyPrim (.setSel p.1 p.2) t else t
      | none => t)
    t

end SelectAllCommand

/-! ## DiagramServer (diagram-server.ts)

The adapter stores `SModelRootSchema` trees.  The schema payload keeps the
fields the adapter reads or writes: `type`, `id`, and the `position`, `size`
and `alignment` attributes written by `applyBounds`/`applyAlignment`.
Coordinates are only ever copied, never computed with, so they are embedded
as integers. -/

/-- A point `{x, y}`. -/
structure PointData where
  x : Int
  y : Int
deriving DecidableEq, Repr

/-- A size `{width, height}`. -/
structure SizeData where
  width : Int
  height : Int
deriving DecidableEq, Repr

/-- A bounds record `{x, y, width, height}`. -/
structure BoundsData where
  x : Int
  y : Int
  width : Int
  height : Int
deriving DecidableEq, Repr

/-- Payload of one `SModelElementSchema` as seen by the adapter. -/
structure SchemaData where
  type : String
  id : String
  position : Option PointData
  size : Option SizeData
  alignment : Option PointData
deriving DecidableEq, Repr

/-- An `SModelRootSchema` tree (`currentRoot` and the roots carried by
model actions). -/
abbrev SchemaElem := RTree SchemaData

/-- Lookup in a freshly built `SModelIndex` over a schema tree.
Modelled from the spec: the index "provides O(1) id→element lookup" and is
built by `index.add(root)` walking the tree (the index class itself is not
under `src/`); on a tree it is lookup by id in document order. -/
def schemaGetById (i : String) (t : SchemaElem) : Option SchemaElem :=
  RTree.getById SchemaData.id i t

/-- `DiagramServer.applyBounds` (diagram-server.ts lines 194-198) applied to
the element with the given id: overwrite its `position` and `size` with the
new bounds. -/
def applyBounds (eid : String) (nb : BoundsData) : SchemaElem → SchemaElem :=
  RTree.mapData fun d =>
    if d.id = eid then
      { d with position := some ⟨nb.x, nb.y⟩, size := some ⟨nb.width, nb.height⟩ }
    else d

/-- `DiagramServer.applyAlignment` (diagram-server.ts lines 200-203) applied
to the element with the given id. -/
def applyAlignment (eid : String) (na : PointData) : SchemaElem → SchemaElem :=
  RTree.mapData fun d =>
    if d.id = eid then { d with alignment := some ⟨na.x, na.y⟩ } else d

/-- One `{elementId, newBounds}` entry of a `ComputedBoundsAction`. -/
structure ElementAndBounds where
  elementId : String
  newBounds : BoundsData
deriving DecidableEq, Repr

/-- One `{elementId, newAlignment}` entry of a `ComputedBoundsAction`. -/
structure ElementAndAlignment where
  elementId : String
  newAlignment : PointData
deriving DecidableEq, Repr

/-- The fields of an action that the `DiagramServer` inspects: its `kind`
tag, the out-of-band `__receivedFromServer` mark, the `newRoot` carried by
model actions, and the payload of a `ComputedBoundsAction`.  Fields that do
not apply to a given kind are simply never read. -/
structure GAction where
  kind : String
  receivedFromServer : Bool
  newRoot : Option SchemaElem
  bounds : List ElementAndBounds
  alignments : Option (List ElementAndAlignment)

/-- `ActionMessage` (diagram-server.ts lines 32-35): the transport envelope. -/
structure ActionMessage where
  clientId : String
  action : GAction

/-- An action dispatched into the local pipeline by the adapter
(`this.actionDispatcher.dispatch(...)` in `handleComputedBounds`). -/
inductive DispatchedAction where
  | updateModel : SchemaElem → DispatchedAction
  | setModel : SchemaElem → DispatchedAction

/-- The observable state of one `DiagramServer` instance: its `clientId`,
the `needsServerLayout` viewer option, `currentRoot`,
`lastSubmittedModelType` (a `String` that starts out undefined, hence
`Option`), and the log of roots passed to `storage.store`. -/
structure ServerState where
  clientId : String
  needsServerLayout : Bool
  currentRoot : SchemaElem
  lastSubmittedModelType : Option String
  storedRoots : List SchemaElem

/-- `DiagramServer.storeNewModel` (diagram-server.ts lines 146-159): for
`setModel`, `updateModel` and `requestBounds` actions carrying a `newRoot`,
replace `currentRoot`, update `lastSubmittedModelType` (for `setModel` and
`updateModel` only) and store the new root; otherwise do nothing. -/
def DiagramServer.storeNewModel (st : ServerState) (a : GAction) : ServerState :=
  if a.kind = "setModel" || a.kind = "updateModel" || a.kind = "requestBounds" then
    match a.newRoot with
    | some newRoot =>
      { st with
        currentRoot := newRoot
        lastSubmittedModelType :=
          if a.kind = "setModel" || a.kind = "updateModel" then some newRoot.data.type
          else st.lastSubmittedModelType
        storedRoots := st.storedRoots ++ [newRoot] }
    | none => st
  else st

/-- Result of `handleComputedBounds`: the new server state, the actions
dispatched into the local pipeline, and whether the action is to be
forwarded to the authority. -/
structure ComputedBoundsResult where
  state : ServerState
  dispatched : List DispatchedAction
  forward : Bool

/-- `DiagramServer.handleComputedBounds` (diagram-server.ts lines 165-192):
when `needsServerLayout`, forward unchanged; otherwise build an index over
`currentRoot`, apply every resolving bounds entry (misses are skipped), then
every resolving alignment entry, dispatch `UpdateModelAction` when the root
type equals `lastSubmittedModelType` and `SetModelAction` otherwise, and set
`lastSubmittedModelType` to the root type.  The source mutates the elements
through the index, so `currentRoot` (aliased by `root`) ends up updated. -/
def DiagramServer.handleComputedBounds (st : ServerState) (a : GAction) : ComputedBoundsResult :=
  if st.needsServerLayout then ⟨st, [], true⟩
  else
    let root0 := st.currentRoot
    let root1 := a.bounds.foldl
      (fun r b =>
        if (schemaGetById b.elementId root0).isSome then applyBounds b.elementId b.newBounds r
        else r)
      root0
    let root2 :=
      match a.alignments with
      | some als =>
        als.foldl
          (fun r al =>
            if (schemaGetById al.elementId root0).isSome then
              applyAlignment al.elementId al.newAlignment r
            else r)
          root1
      | none => root1
    let dispatched :=
      if some root2.data.type = st.lastSubmittedModelType then [DispatchedAction.updateModel root2]
      else [DispatchedAction.setModel root2]
    ⟨{ st with currentRoot := root2, lastSubmittedModelType := some root2.data.type },
      dispatched, false⟩

/-- `DiagramServer.handleLocally` (diagram-server.ts lines 128-141): store any
new model first, then decide by the policy table: `computedBounds` defers to
`handleComputedBounds`; `requestBounds`, `export` and `serverStatus` are
consumed locally; every other kind is forwarded unless marked as received
from the server.  Returns the new state, the locally dispatched actions, and
the forward decision. -/
def DiagramServer.handleLocally (st : ServerState) (a : GAction) :
    ServerState × List DispatchedAction × Bool :=
  let st1 := DiagramServer.storeNewModel st a
  if a.kind = "computedBounds" then
    let r := DiagramServer.handleComputedBounds st1 a
    (r.state, r.dispatched, r.forward)
  else if a.kind = "requestBounds" then (st1, [], false)
  else if a.kind = "export" then (st1, [], false)
  else if a.kind = "serverStatus" then (st1, [], false)
  else (st1, [], !a.receivedFromServer)

/-- Result of `DiagramServer.handle`: the new state, the locally dispatched
actions, and the message passed to `sendMessage` if the action was forwarded. -/
structure HandleResult where
  state : ServerState
  dispatched : List DispatchedAction
  sent : Option ActionMessage

/-- `DiagramServer.handle` (diagram-server.ts lines 97-107): handle locally;
when that returns true, construct the `ActionMessage` envelope with this
instance's `clientId` and pass it to `sendMessage`. -/
def DiagramServer.handle (st : ServerState) (a : GAction) : HandleResult :=
  let r := DiagramServer.handleLocally st a
  if r.2.2 then ⟨r.1, r.2.1, some ⟨st.clientId, a⟩⟩ else ⟨r.1, r.2.1, none⟩

/-- An inbound payload after JSON parsing, as an untyped JS object:
`clientIdField` is `none` when the `clientId` property is absent;
`actionField` is `none` when the `action` property is absent, and
`some none` when it is present but falsy (e.g. `null`). -/
structure Payload where
  clientIdField : Option String
  actionField : Option (Option GAction)

/-- `isActionMessage` (diagram-server.ts lines 37-39): the object has both a
`clientId` and an `action` own property. -/
def isActionMessage (p : Payload) : Bool :=
  p.clientIdField.isSome && p.actionField.isSome

/-- The truthiness test `object.action` guarding the dispatch branch. -/
def actionTruthy (p : Payload) : Option GAction :=
  match p.actionField with
  | some (some a) => some a
  | _ => none

/-- JS truthiness of `object.clientId`: falsy when absent or the empty
string. -/
def clientIdFalsy (c : Option String) : Bool :=
  match c with
  | none => true
  | some s => s = ""

/-- The observable outcome of `messageReceived`: the action dispatched into
the local pipeline (if any, already marked as received from the server),
whether `storeNewModel` was installed as the post-update callback of that
dispatch, and whether the malformed-message error was logged. -/
structure ReceiveResult where
  dispatchedAction : Option GAction
  usedStoreNewModelHook : Bool
  errorLogged : Bool

/-- `DiagramServer.messageReceived` (diagram-server.ts lines 111-122): when
the payload is an action message with a truthy action, and its `clientId` is
falsy or equals this instance's `clientId`, mark the action as received from
the server and dispatch it with the `storeNewModel` hook; with a different
truthy `clientId` do nothing; otherwise log the error. -/
def DiagramServer.messageReceived (st : ServerState) (p : Payload) : ReceiveResult :=
  match actionTruthy p, isActionMessage p with
  | some a, true =>
    if clientIdFalsy p.clientIdField || p.clientIdField = some st.clientId then
      ⟨some { a with receivedFromServer := true }, true, false⟩
    else ⟨none, false, false⟩
  | _, _ => ⟨none, false, true⟩

/-! ## ActionHandlerRegistry.registerCommand (src/unnamed/part_000 lines 97-102) -/

/-- A command constructor as `registerCommand` sees it: its class name and
its static `KIND` property, `none` when the constructor lacks the property. -/
structure CommandType where
  name : String
  KIND : Option String
deriving DecidableEq, Repr

/-- A handler held by the registry: a `CommandActionHandler` wrapping a
command constructor (identified by its name), or any other handler. -/
inductive RegisteredHandler where
  | commandActionHandler : String → RegisteredHandler
  | other : String → RegisteredHandler
deriving DecidableEq, Repr

/-- The observable state of the registry: the kind→handler bindings and the
log of reported errors. -/
structure ActionHandlerRegistry where
  elements : List (String × RegisteredHandler)
  errors : List String
deriving DecidableEq, Repr

/-- Modelled from the spec: `InstanceRegistry.register(key, instance)` of the
utils module (not under `src/`) "binds a handler object to a kind"; embedded
as appending the binding. -/
def registerBinding (reg : ActionHandlerRegistry) (kind : String) (h : RegisteredHandler) :
    ActionHandlerRegistry :=
  { reg with elements := reg.elements ++ [(kind, h)] }

/-- `ActionHandlerRegistry.registerCommand` (src/unnamed/part_000 lines
97-102): when the constructor has an own `KIND` property, register a
`CommandActionHandler` for it; otherwise report the error and register
nothing. -/
def ActionHandlerRegistry.registerCommand (reg : ActionHandlerRegistry) (ct : CommandType) :
    ActionHandlerRegistry :=
  match ct.KIND with
  | some k => registerBinding reg k (.commandActionHandler ct.name)
  | none =>
    { reg with
      errors := reg.errors ++ ["Command " ++ ct.name ++ "  does not have a KIND property"] }

/-- Proof scaffolding: two sibling lists that agree except for the position
of the one element carrying id `i` (or are equal). -/
def InsertSame (i : String) (cs1 cs2 : List SElem) : Prop :=
  cs1 = cs2 ∨
    ∃ (rest : List SElem) (c : SElem) (m1 m2 : Nat),
      c.data.id = i ∧ (∀ x ∈ rest, ¬x.data.id = i) ∧
      m1 ≤ rest.length ∧ m2 ≤ rest.length ∧
      cs1 = rest.insertIdx m1 c ∧ cs2 = rest.insertIdx m2 c

/-- A leaf element, for concrete test models. -/
def leafE (i : String) (k : EKind) (sel seld : Bool) : SElem :=
  .mk ⟨i, k, sel, seld⟩ []

/-- Concrete model: a root with three selectable, unselected children
`a`, `b`, `c`. -/
def abcRoot : SElem :=
  .mk ⟨"R", .other, false, false⟩
    [leafE "a" .other true false, leafE "b" .other true false, leafE "c" .other true false]

/-- Concrete model for the selection-ordering scenario: node `N1`, edge
`E1 = N2→N1`, unrelated edge `E2 = N2→N2`, plus node `N2`; children in order
`[E2, E1, N2, N1]`. -/
def scenarioRoot : SElem :=
  .mk ⟨"R", .other, false, false⟩
    [leafE "E2" (.edge "N2" "N2") true false,
     leafE "E1" (.edge "N2" "N1") true false,
     leafE "N2" .node true false,
     leafE "N1" .node true false]

/-- Concrete model with a mix of selected and unselected elements (and one
non-selectable element). -/
def mixedRoot : SElem :=
  .mk ⟨"R", .other, false, false⟩
    [leafE "x" .other true true, leafE "y" .other true false,
     leafE "z" .other false false]

/-- Proof scaffolding: the captured sibling index of `s` is correct for the
sibling list `cs` — when a child of `cs` carries the captured id, `cs`
decomposes around its first occurrence with prefix length `s.index`. -/
def IdxFits (s : ElementSelection) (cs : List SElem) : Prop :=
  ∀ c, cs.find? (fun x => x.data.id = s.element.id) = some c →
    ∃ pre suf, cs = pre ++ c :: suf ∧ (∀ x ∈ pre, ¬x.data.id = s.element.id) ∧
      pre.length = s.index

/-- The per-element flag effect of `SelectAllCommand.selectAll`: selectable
elements get the new flag, others are untouched. -/
def selFlagMap (v : Bool) (d : ElemData) : ElemData :=
  if d.selectable then { d with selected := v } else d

/-- The `previousSelection` entries produced by one full `selectAll` walk of a
well-formed tree: for every selectable element, in document order, its id with
its pre-existing flag. -/
def entriesOf (t : SElem) : List (String × Bool) :=
  (RTree.allData t).filterMap fun d => if d.selectable then some (d.id, d.selected) else none

/-- Proof scaffolding: the per-payload effect of one bounds entry of
`handleComputedBounds` — the guard against the pre-mutation index, then the
payload update of `applyBounds` on the addressed element. -/
def boundsStep (root0 : SchemaElem) (b : ElementAndBounds) (d : SchemaData) : SchemaData :=
  if (schemaGetById b.elementId root0).isSome then
    if d.id = b.elementId then
      { d with position := some ⟨b.newBounds.x, b.newBounds.y⟩,
               size := some ⟨b.newBounds.width, b.newBounds.height⟩ }
    else d
  else d

/-- Proof scaffolding: the per-payload effect of one alignment entry of
`handleComputedBounds`. -/
def alignStep (root0 : SchemaElem) (al : ElementAndAlignment) (d : SchemaData) : SchemaData :=
  if (schemaGetById al.elementId root0).isSome then
    if d.id = al.elementId then
      { d with alignment := some ⟨al.newAlignment.x, al.newAlignment.y⟩ }
    else d
  else d

/-- Proof scaffolding: the per-payload effect of the local branch of
`handleComputedBounds` — all resolving bounds entries applied, then all
resolving alignment entries. -/
def cbFun (st : ServerState) (a : GAction) (d : SchemaData) : SchemaData :=
  match a.alignments with
  | some als =>
    als.foldl (fun d al => alignStep st.currentRoot al d)
      (a.bounds.foldl (fun d b => boundsStep st.currentRoot b d) d)
  | none => a.bounds.foldl (fun d b => boundsStep st.currentRoot b d) d

/-- Proof scaffolding: the whole-tree effect of the local branch of
`handleComputedBounds`. -/
def cbNewRoot (st : ServerState) (a : GAction) : SchemaElem :=
  RTree.mapData (cbFun st a) st.currentRoot

/-- A leaf schema element, for concrete scenarios. -/
def schemaLeaf (ty i : String) : SchemaElem :=
  .mk ⟨ty, i, none, none, none⟩ []

/-- Concrete schema root with two child nodes `n1`, `n2`. -/
def schemaRoot0 : SchemaElem :=
  .mk ⟨"graph", "root", none, none, none⟩ [schemaLeaf "node" "n1", schemaLeaf "node" "n2"]

/-- Another concrete schema root. -/
def schemaRoot1 : SchemaElem :=
  .mk ⟨"graph", "root2", none, none, none⟩ []

/-- A concrete diagram-server state: client-side layout, current root
`schemaRoot0`, last submitted type `"graph"`. -/
def testServerState : ServerState :=
  ⟨"client1", false, schemaRoot0, some "graph", []⟩

/-- A concrete action of a kind outside the local-handling policy table. -/
def plainAction : GAction :=
  ⟨"elementSelected", false, none, [], none⟩

/-- A concrete `computedBounds` action: one resolving bounds entry, one miss,
and one resolving alignment entry. -/
def cbAction : GAction :=
  ⟨"computedBounds", false, none,
    [⟨"n1", ⟨1, 2, 3, 4⟩⟩, ⟨"nope", ⟨9, 9, 9, 9⟩⟩], some [⟨"n2", ⟨5, 6⟩⟩]⟩

/-- A concrete `setModel` action carrying a new root. -/
def setModelAction : GAction :=
  ⟨"setModel", false, some schemaRoot1, [], none⟩

/-- A conforming payload from a different client. -/
def otherClientPayload : Payload :=
  ⟨some "other", some (some plainAction)⟩

/-- A concrete command constructor with a `KIND` property. -/
def goodCommandType : CommandType :=
  ⟨"SelectCommand", some "elementSelected"⟩

/-- A concrete command constructor lacking the `KIND` property. -/
def badCommandType : CommandType :=
  ⟨"BadCommand", none⟩

/-- A concrete empty registry. -/
def emptyRegistry : ActionHandlerRegistry :=
  ⟨[], []⟩

/-! # Theorems

First the generic induction principle for rose trees and basic facts about
the embedding, then the properties of the specification. -/

mutual

/-- Induction principle for rose trees, with a motive for trees and one for
lists of trees. -/
theorem rtree_ind {α : Type} (P : RTree α → Prop) (Q : List (RTree α) → Prop)
    (h1 : ∀ d cs, Q cs → P (RTree.mk d cs)) (h2 : Q [])
    (h3 : ∀ c cs, P c → Q cs → Q (c :: cs)) : ∀ t, P t
  | .mk d cs => h1 d cs (rtree_ind_list P Q h1 h2 h3 cs)

/-- List version of `rtree_ind`. -/
theorem rtree_ind_list {α : Type} (P : RTree α → Prop) (Q : List (RTree α) → Prop)
    (h1 : ∀ d cs, Q cs → P (RTree.mk d cs)) (h2 : Q [])
    (h3 : ∀ c cs, P c → Q cs → Q (c :: cs)) : ∀ l, Q l
  | [] => h2
  | c :: cs => h3 c cs (rtree_ind P Q h1 h2 h3 c) (rtree_ind_list P Q h1 h2 h3 cs)

end

theorem applyPrimData_id (p : PrimOp) (d : ElemData) : (applyPrimData p d).id = d.id := by
  cases p <;> simp [applyPrimData] <;> split <;> rfl

theorem applyPrimData_kind (p : PrimOp) (d : ElemData) : (applyPrimData p d).kind = d.kind := by
  cases p <;> simp [applyPrimData] <;> split <;> rfl

theorem applyPrimData_selectable (p : PrimOp) (d : ElemData) :
    (applyPrimData p d).selectable = d.selectable := by
  cases p <;> simp [applyPrimData] <;> split <;> rfl

theorem applyPrimChildren_eq_map (p : PrimOp) (cs : List SElem) :
    applyPrimChildren p cs = cs.map (applyPrim p) := by
  induction cs with
  | nil => rfl
  | cons c rest ih => simp [applyPrimChildren, ih]

theorem applyPrim_mk (p : PrimOp) (d : ElemData) (cs : List SElem) :
    applyPrim p (.mk d cs) = .mk (applyPrimData p d) (applyPrimList p (cs.map (applyPrim p))) := by
  rw [applyPrim, applyPrimChildren_eq_map]

theorem applyPrim_data (p : PrimOp) (t : SElem) :
    (applyPrim p t).data = applyPrimData p t.data := by
  cases t with
  | mk d cs => rw [applyPrim_mk]; rfl

theorem applyPrim_data_id (p : PrimOp) (t : SElem) :
    (applyPrim p t).data.id = t.data.id := by
  rw [applyPrim_data, applyPrimData_id]

theorem applyOps_nil (t : SElem) : applyOps [] t = t := rfl

theorem applyOps_cons (p : PrimOp) (ps : List PrimOp) (t : SElem) :
    applyOps (p :: ps) t = applyOps ps (applyPrim p t) := rfl

theorem applyOps_append (a b : List PrimOp) (t : SElem) :
    applyOps (a ++ b) t = applyOps b (applyOps a t) := by
  simp [applyOps, List.foldl_append]

theorem applyOps_data_id (ps : List PrimOp) (t : SElem) :
    (applyOps ps t).data.id = t.data.id := by
  induction ps generalizing t with
  | nil => rfl
  | cons p ps ih => rw [applyOps_cons, ih, applyPrim_data_id]

theorem dataFold_nil (d : ElemData) : dataFold [] d = d := rfl

theorem dataFold_cons (p : PrimOp) (ps : List PrimOp) (d : ElemData) :
    dataFold (p :: ps) d = dataFold ps (applyPrimData p d) := rfl

theorem dataFold_append (a b : List PrimOp) (d : ElemData) :
    dataFold (a ++ b) d = dataFold b (dataFold a d) := by
  simp [dataFold, List.foldl_append]

theorem listFold_nil (cs : List SElem) : listFold [] cs = cs := rfl

theorem listFold_cons (p : PrimOp) (ps : List PrimOp) (cs : List SElem) :
    listFold (p :: ps) cs = listFold ps (applyPrimList p cs) := rfl

theorem listFold_append (a b : List PrimOp) (cs : List SElem) :
    listFold (a ++ b) cs = listFold b (listFold a cs) := by
  simp [listFold, List.foldl_append]

theorem lastSet_nil (i : String) : lastSet i [] = none := rfl

theorem lastSet_cons (i : String) (p : PrimOp) (ps : List PrimOp) :
    lastSet i (p :: ps) =
      match lastSet i ps with
      | some b => some b
      | none =>
        match p with
        | .setSel j b => if j = i then some b else none
        | _ => none := rfl

theorem lastSet_append (i : String) (a b : List PrimOp) :
    lastSet i (a ++ b) =
      match lastSet i b with
      | some v => some v
      | none => lastSet i a := by
  induction a with
  | nil => cases h : lastSet i b <;> simp [lastSet_nil, h]
  | cons p ps ih =>
    rw [List.cons_append, lastSet_cons, ih, lastSet_cons]
    cases lastSet i b <;> cases lastSet i ps <;> rfl

theorem ElemData.eq_of_fields {a b : ElemData} (h1 : a.id = b.id) (h2 : a.kind = b.kind)
    (h3 : a.selectable = b.selectable) (h4 : a.selected = b.selected) : a = b := by
  cases a; cases b; simp_all

theorem dataFold_eq (ps : List PrimOp) (d : ElemData) :
    dataFold ps d = { d with selected := (lastSet d.id ps).getD d.selected } := by
  induction ps generalizing d with
  | nil => rfl
  | cons p ps ih =>
    rw [dataFold_cons, ih, lastSet_cons]
    have hid := applyPrimData_id p d
    apply ElemData.eq_of_fields
    · simp [applyPrimData_id, hid]
    · simp [applyPrimData_kind]
    · simp [applyPrimData_selectable]
    · rw [hid]
      cases h : lastSet d.id ps with
      | some b => simp
      | none =>
        simp only [Option.getD_none, Option.getD_some]
        cases p with
        | setSel j b =>
          by_cases hj : j = d.id
          · subst hj; simp [applyPrimData]
          · have : ¬(d.id = j) := fun hh => hj hh.symm
            simp [applyPrimData, this, hj]
        | movIdx j k => simp [applyPrimData]
        | movEnd j => simp [applyPrimData]

theorem insertIdx_map {α β : Type} (f : α → β) (n : Nat) (a : α) (l : List α) :
    (l.insertIdx n a).map f = (l.map f).insertIdx n (f a) := by
  induction n generalizing l with
  | zero => simp
  | succ n ih =>
    cases l with
    | nil => simp
    | cons x xs => simp [ih]

theorem insertIdx_perm {α : Type} (a : α) (n : Nat) (l : List α) (h : n ≤ l.length) :
    List.Perm (l.insertIdx n a) (a :: l) := by
  induction n generalizing l with
  | zero => simp
  | succ n ih =>
    cases l with
    | nil => simp at h
    | cons x xs =>
      simp only [List.insertIdx_succ_cons]
      exact ((ih xs (by simpa using h)).cons x).trans (List.Perm.swap a x xs)

theorem find?_decomp {cs : List SElem} {c : SElem} {cid : String}
    (h : cs.find? (fun x => x.data.id = cid) = some c) :
    c.data.id = cid ∧ ∃ pre suf, cs = pre ++ c :: suf ∧ (∀ x ∈ pre, ¬x.data.id = cid) ∧
      cs.eraseP (fun x => x.data.id = cid) = pre ++ suf := by
  have h2 := List.find?_eq_some.mp h
  obtain ⟨hpc, pre, suf, hcs, hpre⟩ := h2
  have hpc2 : c.data.id = cid := by simpa using hpc
  have hpre2 : ∀ x ∈ pre, ¬x.data.id = cid := by
    intro x hx
    have := hpre x hx
    simpa using this
  refine ⟨hpc2, pre, suf, hcs, hpre2, ?_⟩
  rw [hcs, List.eraseP_append_right _ (fun b hb => by simpa using hpre2 b hb)]
  rw [List.eraseP_cons]
  simp [hpc2]

theorem moveInList_not_mem {cid : String} {idx : Nat} {cs : List SElem}
    (h : ∀ c ∈ cs, ¬c.data.id = cid) : moveInList cid idx cs = cs := by
  unfold moveInList
  have : cs.find? (fun c => c.data.id = cid) = none := by
    rw [List.find?_eq_none]
    intro x hx
    simpa using h x hx
  rw [this]

theorem moveInList_map (cid : String) (idx : Nat) (cs : List SElem) (f : SElem → SElem)
    (hf : ∀ c, (f c).data.id = c.data.id) :
    moveInList cid idx (cs.map f) = (moveInList cid idx cs).map f := by
  unfold moveInList
  have hp : ((fun c : SElem => decide (c.data.id = cid)) ∘ f)
      = fun c : SElem => decide (c.data.id = cid) := by
    funext c
    simp [hf]
  rw [List.find?_map, List.eraseP_map]
  simp only [hp]
  cases h : cs.find? (fun c => c.data.id = cid) with
  | none => rfl
  | some c =>
    simp only [Option.map_some]
    rw [insertIdx_map]
    simp

theorem applyPrimList_map (p : PrimOp) (cs : List SElem) (f : SElem → SElem)
    (hf : ∀ c, (f c).data.id = c.data.id) :
    applyPrimList p (cs.map f) = (applyPrimList p cs).map f := by
  cases p with
  | setSel i b => rfl
  | movIdx i k => exact moveInList_map i k cs f hf
  | movEnd i =>
    simp only [applyPrimList, List.length_map]
    exact moveInList_map i (cs.length - 1) cs f hf

theorem applyOps_mk (ps : List PrimOp) (d : ElemData) (cs : List SElem) :
    applyOps ps (.mk d cs) = .mk (dataFold ps d) (listFold ps (cs.map (applyOps ps))) := by
  induction ps generalizing d cs with
  | nil =>
    rw [applyOps_nil, dataFold_nil, listFold_nil]
    exact congrArg (RTree.mk d) (List.map_id'' (f := applyOps []) (fun x => rfl) cs).symm
  | cons p ps ih =>
    rw [applyOps_cons, applyPrim_mk, ih, dataFold_cons, listFold_cons]
    congr 1
    rw [← applyPrimList_map p (cs.map (applyPrim p)) (applyOps ps)
      (fun c => applyOps_data_id ps c)]
    congr 1
    rw [List.map_map]
    rfl

theorem moveInList_perm (cid : String) (idx : Nat) (cs : List SElem) :
    List.Perm (moveInList cid idx cs) cs := by
  unfold moveInList
  cases h : cs.find? (fun c => c.data.id = cid) with
  | none => exact List.Perm.refl cs
  | some c =>
    obtain ⟨hpc, pre, suf, hcs, hpre, herase⟩ := find?_decomp h
    simp only [herase]
    refine (insertIdx_perm c _ (pre ++ suf) (Nat.min_le_right _ _)).trans ?_
    rw [hcs]
    exact (List.perm_middle).symm

theorem applyPrimList_perm (p : PrimOp) (cs : List SElem) :
    List.Perm (applyPrimList p cs) cs := by
  cases p with
  | setSel i b => exact List.Perm.refl cs
  | movIdx i k => exact moveInList_perm i k cs
  | movEnd i => exact moveInList_perm i (cs.length - 1) cs

theorem allDataList_append {α : Type} (l1 l2 : List (RTree α)) :
    RTree.allDataList (l1 ++ l2) = RTree.allDataList l1 ++ RTree.allDataList l2 := by
  induction l1 with
  | nil => simp [RTree.allDataList]
  | cons c rest ih => simp [RTree.allDataList, ih]

theorem allDataList_eq_flatMap {α : Type} (l : List (RTree α)) :
    RTree.allDataList l = l.flatMap RTree.allData := by
  induction l with
  | nil => rfl
  | cons c rest ih => simp [RTree.allDataList, ih, List.flatMap_cons]

theorem allDataList_perm {α : Type} {l1 l2 : List (RTree α)} (h : List.Perm l1 l2) :
    List.Perm (RTree.allDataList l1) (RTree.allDataList l2) := by
  rw [allDataList_eq_flatMap, allDataList_eq_flatMap]
  exact h.flatMap_right RTree.allData

theorem applyPrim_allData_perm (p : PrimOp) (t : SElem) :
    List.Perm (RTree.allData (applyPrim p t)) ((RTree.allData t).map (applyPrimData p)) := by
  induction t using rtree_ind
    (Q := fun l => List.Perm (RTree.allDataList (applyPrimChildren p l))
      ((RTree.allDataList l).map (applyPrimData p))) with
  | h1 d cs hQ =>
    rw [applyPrim, RTree.allData, RTree.allData, List.map_cons]
    refine List.Perm.cons _ ?_
    exact (allDataList_perm (applyPrimList_perm p _)).trans hQ
  | h2 => exact List.Perm.refl _
  | h3 c cs hc hcs =>
    rw [applyPrimChildren, RTree.allDataList, RTree.allDataList, List.map_append]
    exact hc.append hcs

theorem applyOps_allData_perm (ps : List PrimOp) (t : SElem) :
    List.Perm (RTree.allData (applyOps ps t)) ((RTree.allData t).map (dataFold ps)) := by
  induction ps generalizing t with
  | nil =>
    rw [applyOps_nil, List.map_id'' (f := dataFold []) (fun x => rfl)]
  | cons p ps ih =>
    rw [applyOps_cons]
    refine (ih (applyPrim p t)).trans ?_
    refine ((applyPrim_allData_perm p t).map (dataFold ps)).trans ?_
    rw [List.map_map]
    exact List.Perm.refl _

theorem insertIdx_eq_take_cons_drop {α : Type} (a : α) {n : Nat} {l : List α}
    (h : n ≤ l.length) : l.insertIdx n a = l.take n ++ a :: l.drop n := by
  induction n generalizing l with
  | zero => simp
  | succ n ih =>
    cases l with
    | nil => simp at h
    | cons x xs => simp [ih (by simpa using h)]

theorem find?_insertIdx_neg {α : Type} {p : α → Bool} {a : α} {n : Nat} {l : List α}
    (h : n ≤ l.length) (ha : ¬p a) :
    (l.insertIdx n a).find? p = l.find? p := by
  rw [insertIdx_eq_take_cons_drop a h, List.find?_append, List.find?_cons_of_neg _ ha]
  rw [← List.find?_append, List.take_append_drop]

theorem find?_insertIdx_pos {α : Type} {p : α → Bool} {a : α} {n : Nat} {l : List α}
    (h : n ≤ l.length) (ha : p a) (hl : ∀ x ∈ l, ¬p x) :
    (l.insertIdx n a).find? p = some a := by
  rw [insertIdx_eq_take_cons_drop a h, List.find?_append]
  have h1 : (l.take n).find? p = none := by
    rw [List.find?_eq_none]
    intro x hx
    exact hl x (List.mem_of_mem_take hx)
  rw [h1, List.find?_cons_of_pos _ ha]
  rfl

theorem eraseP_insertIdx_pos {α : Type} {p : α → Bool} {a : α} {n : Nat} {l : List α}
    (h : n ≤ l.length) (ha : p a) (hl : ∀ x ∈ l, ¬p x) :
    (l.insertIdx n a).eraseP p = l := by
  rw [insertIdx_eq_take_cons_drop a h,
    List.eraseP_append_right _ (fun b hb => hl b (List.mem_of_mem_take hb)),
    List.eraseP_cons_of_pos ha, List.take_append_drop]

theorem eraseP_insertIdx_neg {α : Type} {p : α → Bool} {a : α} {n : Nat} {l : List α}
    (h : n ≤ l.length) (ha : ¬p a) :
    ∃ m, m ≤ (l.eraseP p).length ∧
      (l.insertIdx n a).eraseP p = (l.eraseP p).insertIdx m a := by
  rw [insertIdx_eq_take_cons_drop a h]
  by_cases hany : (l.take n).any p
  · refine ⟨((l.take n).eraseP p).length, ?_, ?_⟩
    · have : l.eraseP p = (l.take n).eraseP p ++ l.drop n := by
        conv_lhs => rw [← List.take_append_drop n l]
        rw [List.eraseP_append, if_pos hany]
      rw [this, List.length_append]
      exact Nat.le_add_right _ _
    · have h2 : l.eraseP p = (l.take n).eraseP p ++ l.drop n := by
        conv_lhs => rw [← List.take_append_drop n l]
        rw [List.eraseP_append, if_pos hany]
      rw [List.eraseP_append, if_pos (by simpa using hany), h2]
      rw [insertIdx_eq_take_cons_drop a (by simp)]
      rw [List.take_left, List.drop_left]
  · refine ⟨n, ?_, ?_⟩
    · have h2 : l.eraseP p = l.take n ++ (l.drop n).eraseP p := by
        conv_lhs => rw [← List.take_append_drop n l]
        rw [List.eraseP_append, if_neg hany]
      rw [h2, List.length_append, List.length_take]
      omega
    · have h2 : l.eraseP p = l.take n ++ (l.drop n).eraseP p := by
        conv_lhs => rw [← List.take_append_drop n l]
        rw [List.eraseP_append, if_neg hany]
      rw [List.eraseP_append, if_neg (by simpa using hany), List.eraseP_cons_of_neg ha, h2]
      rw [insertIdx_eq_take_cons_drop a (by rw [List.length_append, List.length_take]; omega)]
      have hn : (l.take n).length = n := by rw [List.length_take]; omega
      rw [List.take_left' hn, List.drop_left' hn]

theorem moveInList_eq_none {cid : String} {idx : Nat} {cs : List SElem}
    (h : cs.find? (fun c => c.data.id = cid) = none) : moveInList cid idx cs = cs := by
  unfold moveInList
  rw [h]

theorem moveInList_eq_some {cid : String} {idx : Nat} {cs : List SElem} {c : SElem}
    (h : cs.find? (fun c => c.data.id = cid) = some c) :
    moveInList cid idx cs =
      (cs.eraseP (fun x => x.data.id = cid)).insertIdx
        (min idx (cs.eraseP (fun x => x.data.id = cid)).length) c := by
  unfold moveInList
  rw [h]

theorem insertIdx_append_left {α : Type} (a : α) {m : Nat} {A : List α} (B : List α)
    (h : m ≤ A.length) : A.insertIdx m a ++ B = (A ++ B).insertIdx m a := by
  rw [insertIdx_eq_take_cons_drop a h, insertIdx_eq_take_cons_drop a (by simp; omega)]
  rw [List.take_append_of_le_length h, List.drop_append_of_le_length h]
  simp

theorem nodup_ids_no_eraseP {cs : List SElem} {c : SElem} {cid : String}
    (hnd : (cs.map (fun x => x.data.id)).Nodup)
    (h : cs.find? (fun x => x.data.id = cid) = some c) :
    ∀ x ∈ cs.eraseP (fun x => x.data.id = cid), ¬x.data.id = cid := by
  obtain ⟨hpc, pre, suf, hcs, hpre, herase⟩ := find?_decomp h
  rw [herase]
  subst hcs
  simp only [List.map_append, List.map_cons, List.nodup_append] at hnd
  intro x hx hxid
  rcases List.mem_append.mp hx with hx1 | hx2
  · exact hpre x hx1 hxid
  · have hnd2 := hnd.2.1
    rw [List.nodup_cons] at hnd2
    have : c.data.id ∈ suf.map (fun x => x.data.id) := by
      rw [hpc, ← hxid]
      exact List.mem_map_of_mem _ hx2
    exact hnd2.1 this

theorem insertSame_moveInList (i : String) (k : Nat) (cs : List SElem)
    (hnd : (cs.map (fun c => c.data.id)).Nodup) : InsertSame i (moveInList i k cs) cs := by
  cases h : cs.find? (fun c => c.data.id = i) with
  | none => exact Or.inl (moveInList_eq_none h)
  | some c =>
    obtain ⟨hpc, pre, suf, hcs, hpre, herase⟩ := find?_decomp h
    right
    have hnomem := nodup_ids_no_eraseP hnd h
    rw [herase] at hnomem
    refine ⟨pre ++ suf, c, min k (pre ++ suf).length, pre.length, hpc, hnomem, ?_, ?_, ?_, ?_⟩
    · exact Nat.min_le_right _ _
    · simp
    · rw [moveInList_eq_some h, herase]
    · rw [insertIdx_eq_take_cons_drop c (by simp), List.take_left, List.drop_left]
      exact hcs

theorem insertSame_movEnd_ne {i j : String} (hij : ¬j = i) {cs1 cs2 : List SElem}
    (h : InsertSame i cs1 cs2) :
    InsertSame i (applyPrimList (.movEnd j) cs1) (applyPrimList (.movEnd j) cs2) := by
  rcases h with rfl | ⟨rest, c, m1, m2, hc, hrest, hm1, hm2, h1, h2⟩
  · exact Or.inl rfl
  have hcj : ¬(decide (c.data.id = j) = true) := by
    simp only [decide_eq_true_eq]
    rw [hc]
    exact fun hh => hij hh.symm
  have hfind1 : cs1.find? (fun x => x.data.id = j) = rest.find? (fun x => x.data.id = j) := by
    rw [h1]
    exact find?_insertIdx_neg hm1 hcj
  have hfind2 : cs2.find? (fun x => x.data.id = j) = rest.find? (fun x => x.data.id = j) := by
    rw [h2]
    exact find?_insertIdx_neg hm2 hcj
  cases hje : rest.find? (fun x => x.data.id = j) with
  | none =>
    rw [show applyPrimList (.movEnd j) cs1 = cs1 from moveInList_eq_none (hfind1.trans hje)]
    rw [show applyPrimList (.movEnd j) cs2 = cs2 from moveInList_eq_none (hfind2.trans hje)]
    exact Or.inr ⟨rest, c, m1, m2, hc, hrest, hm1, hm2, h1, h2⟩
  | some e =>
    have hemem : e ∈ rest := List.mem_of_find?_eq_some hje
    have hpe := List.find?_some (p := fun x : SElem => decide (x.data.id = j)) hje
    have hrestlen : 1 ≤ rest.length := List.length_pos.mpr (fun hh => by simp [hh] at hemem)
    have hel : (rest.eraseP (fun x => x.data.id = j)).length = rest.length - 1 :=
      List.length_eraseP_of_mem hemem hpe
    obtain ⟨m1n, hm1n, herase1⟩ := eraseP_insertIdx_neg hm1 hcj
      (p := fun x : SElem => decide (x.data.id = j)) (a := c) (l := rest)
    obtain ⟨m2n, hm2n, herase2⟩ := eraseP_insertIdx_neg hm2 hcj
      (p := fun x : SElem => decide (x.data.id = j)) (a := c) (l := rest)
    have hlen1 : cs1.length = rest.length + 1 := by
      rw [h1]; exact List.length_insertIdx m1 rest hm1
    have hlen2 : cs2.length = rest.length + 1 := by
      rw [h2]; exact List.length_insertIdx m2 rest hm2
    have helen1 : (cs1.eraseP (fun x => x.data.id = j)).length = rest.length := by
      rw [h1] at *
      rw [herase1, List.length_insertIdx m1n _ hm1n, hel]
      omega
    have helen2 : (cs2.eraseP (fun x => x.data.id = j)).length = rest.length := by
      rw [h2] at *
      rw [herase2, List.length_insertIdx m2n _ hm2n, hel]
      omega
    have hres1 : applyPrimList (.movEnd j) cs1
        = ((rest.eraseP (fun x => x.data.id = j)) ++ [e]).insertIdx m1n c := by
      show moveInList j (cs1.length - 1) cs1 = _
      rw [moveInList_eq_some (by rw [hfind1]; exact hje), helen1, hlen1]
      have hmin : min (rest.length + 1 - 1) rest.length = rest.length := by omega
      rw [hmin, h1, herase1]
      rw [show rest.length
          = ((rest.eraseP (fun x => x.data.id = j)).insertIdx m1n c).length from by
        rw [List.length_insertIdx m1n _ hm1n]; omega]
      rw [List.insertIdx_length_self]
      exact insertIdx_append_left c [e] hm1n
    have hres2 : applyPrimList (.movEnd j) cs2
        = ((rest.eraseP (fun x => x.data.id = j)) ++ [e]).insertIdx m2n c := by
      show moveInList j (cs2.length - 1) cs2 = _
      rw [moveInList_eq_some (by rw [hfind2]; exact hje), helen2, hlen2]
      have hmin : min (rest.length + 1 - 1) rest.length = rest.length := by omega
      rw [hmin, h2, herase2]
      rw [show rest.length
          = ((rest.eraseP (fun x => x.data.id = j)).insertIdx m2n c).length from by
        rw [List.length_insertIdx m2n _ hm2n]; omega]
      rw [List.insertIdx_length_self]
      exact insertIdx_append_left c [e] hm2n
    rw [hres1, hres2]
    right
    refine ⟨rest.eraseP (fun x => x.data.id = j) ++ [e], c, m1n, m2n, hc, ?_, ?_, ?_, rfl, rfl⟩
    · intro x hx
      rcases List.mem_append.mp hx with hx1 | hx2
      · exact hrest x (List.mem_of_mem_eraseP hx1)
      · rw [List.mem_singleton.mp hx2]
        exact hrest e hemem
    · simp
      omega
    · simp
      omega

theorem insertSame_movEnd_collapse (i : String) {cs1 cs2 : List SElem}
    (h : InsertSame i cs1 cs2) :
    applyPrimList (.movEnd i) cs1 = applyPrimList (.movEnd i) cs2 := by
  rcases h with rfl | ⟨rest, c, m1, m2, hc, hrest, hm1, hm2, h1, h2⟩
  · rfl
  have hci : (fun x : SElem => decide (x.data.id = i)) c = true := by simp [hc]
  have hrest2 : ∀ x ∈ rest, ¬((fun x : SElem => decide (x.data.id = i)) x = true) := by
    intro x hx
    simpa using hrest x hx
  have hrest3 : ∀ x ∈ rest, ¬(decide (x.data.id = i) = true) := hrest2
  have hfind1 : cs1.find? (fun x => x.data.id = i) = some c := by
    rw [h1]; exact find?_insertIdx_pos hm1 hci (fun x hx => hrest3 x hx)
  have hfind2 : cs2.find? (fun x => x.data.id = i) = some c := by
    rw [h2]; exact find?_insertIdx_pos hm2 hci (fun x hx => hrest3 x hx)
  have herase1 : cs1.eraseP (fun x => x.data.id = i) = rest := by
    rw [h1]; exact eraseP_insertIdx_pos hm1 hci (fun x hx => hrest3 x hx)
  have herase2 : cs2.eraseP (fun x => x.data.id = i) = rest := by
    rw [h2]; exact eraseP_insertIdx_pos hm2 hci (fun x hx => hrest3 x hx)
  have hlen1 : cs1.length = rest.length + 1 := by
    rw [h1]; exact List.length_insertIdx m1 rest hm1
  have hlen2 : cs2.length = rest.length + 1 := by
    rw [h2]; exact List.length_insertIdx m2 rest hm2
  show moveInList i (cs1.length - 1) cs1 = moveInList i (cs2.length - 1) cs2
  rw [moveInList_eq_some hfind1, moveInList_eq_some hfind2, herase1, herase2, hlen1, hlen2]

theorem listFold_setSel_eq {S : List PrimOp} (hS : ∀ q ∈ S, ∃ j b, q = PrimOp.setSel j b)
    (cs : List SElem) : listFold S cs = cs := by
  induction S with
  | nil => rfl
  | cons p S ih =>
    obtain ⟨j, b, rfl⟩ := hS _ (List.mem_cons_self p S)
    rw [listFold_cons]
    exact ih fun q hq => hS q (List.mem_cons_of_mem _ hq)

theorem listFold_insertSame {i : String} {r : List PrimOp}
    (hr : ∀ q ∈ r, (∃ j, q = PrimOp.movEnd j) ∨ (∃ j b, q = PrimOp.setSel j b))
    (hir : PrimOp.movEnd i ∈ r) :
    ∀ {cs1 cs2 : List SElem}, InsertSame i cs1 cs2 → listFold r cs1 = listFold r cs2 := by
  induction r with
  | nil => exact absurd hir (List.not_mem_nil _)
  | cons p r ih =>
    intro cs1 cs2 h
    rcases h with rfl | hx
    · rfl
    rw [listFold_cons, listFold_cons]
    rcases hr p (List.mem_cons_self p r) with ⟨j, rfl⟩ | ⟨j, b, rfl⟩
    · by_cases hji : j = i
      · subst hji
        rw [insertSame_movEnd_collapse j (Or.inr hx)]
      · have hir2 : PrimOp.movEnd i ∈ r := by
          rcases List.mem_cons.mp hir with h1 | h2
          · injection h1 with h3
            exact absurd h3.symm hji
          · exact h2
        exact ih (fun q hq => hr q (List.mem_cons_of_mem _ hq)) hir2
          (insertSame_movEnd_ne hji (Or.inr hx))
    · have hir2 : PrimOp.movEnd i ∈ r := by
        rcases List.mem_cons.mp hir with h1 | h2
        · exact absurd h1 (by simp)
        · exact h2
      exact ih (fun q hq => hr q (List.mem_cons_of_mem _ hq)) hir2 (Or.inr hx)

theorem listFold_absorb_one {r : List PrimOp} {p : PrimOp}
    (hr : ∀ q ∈ r, (∃ j, q = PrimOp.movEnd j) ∨ (∃ j b, q = PrimOp.setSel j b))
    (hp : (∃ j b, p = PrimOp.setSel j b) ∨
      ∃ i, (p = PrimOp.movEnd i ∨ ∃ k, p = PrimOp.movIdx i k) ∧ PrimOp.movEnd i ∈ r)
    (cs : List SElem) (hnd : (cs.map (fun c => c.data.id)).Nodup) :
    listFold r (applyPrimList p cs) = listFold r cs := by
  rcases hp with ⟨j, b, rfl⟩ | ⟨i, hshape, hir⟩
  · rfl
  rcases hshape with rfl | ⟨k, rfl⟩
  · exact listFold_insertSame hr hir (insertSame_moveInList i (cs.length - 1) cs hnd)
  · exact listFold_insertSame hr hir (insertSame_moveInList i k cs hnd)

theorem nodup_ids_applyPrimList {p : PrimOp} {cs : List SElem}
    (hnd : (cs.map (fun c => c.data.id)).Nodup) :
    ((applyPrimList p cs).map (fun c => c.data.id)).Nodup :=
  (((applyPrimList_perm p cs).map (fun c => c.data.id)).nodup_iff).mpr hnd

theorem listFold_absorb {r : List PrimOp}
    (hr : ∀ q ∈ r, (∃ j, q = PrimOp.movEnd j) ∨ (∃ j b, q = PrimOp.setSel j b)) :
    ∀ (u : List PrimOp),
      (∀ p ∈ u, (∃ j b, p = PrimOp.setSel j b) ∨
        ∃ i, (p = PrimOp.movEnd i ∨ ∃ k, p = PrimOp.movIdx i k) ∧ PrimOp.movEnd i ∈ r) →
      ∀ (cs : List SElem), (cs.map (fun c => c.data.id)).Nodup →
        listFold (u ++ r) cs = listFold r cs := by
  intro u
  induction u with
  | nil => intro _ cs _; rfl
  | cons p u ih =>
    intro hu cs hnd
    rw [List.cons_append, listFold_cons]
    rw [ih (fun q hq => hu q (List.mem_cons_of_mem _ hq)) _ (nodup_ids_applyPrimList hnd)]
    exact listFold_absorb_one hr (hu p (List.mem_cons_self p u)) cs hnd

theorem redoOps_shape (st : SelectCommandState) :
    ∀ q ∈ redoOps st, (∃ j, q = PrimOp.movEnd j) ∨ (∃ j b, q = PrimOp.setSel j b) := by
  intro q hq
  unfold redoOps at hq
  rcases List.mem_append.mp hq with hq1 | hq2
  · rcases List.mem_append.mp hq1 with hqa | hqb
    · obtain ⟨s, _, rfl⟩ := List.mem_map.mp hqa
      exact Or.inl ⟨s.element.id, rfl⟩
    · obtain ⟨s, _, hs⟩ := List.mem_filterMap.mp hqb
      right
      by_cases hsel : s.element.selectable
      · rw [if_pos hsel] at hs
        exact ⟨s.element.id, false, (Option.some_inj.mp hs).symm⟩
      · rw [if_neg hsel] at hs
        cases hs
  · obtain ⟨s, _, hs⟩ := List.mem_filterMap.mp hq2
    right
    by_cases hsel : s.element.selectable
    · rw [if_pos hsel] at hs
      exact ⟨s.element.id, true, (Option.some_inj.mp hs).symm⟩
    · rw [if_neg hsel] at hs
      cases hs

theorem movEnd_mem_redoOps {st : SelectCommandState} {i : String}
    (h : ∃ s ∈ st.selected, s.element.id = i) : PrimOp.movEnd i ∈ redoOps st := by
  obtain ⟨s, hs, rfl⟩ := h
  unfold redoOps
  exact List.mem_append_left _ (List.mem_append_left _ (List.mem_map_of_mem _ hs))

theorem undoOps_absorbable (st r2 : SelectCommandState) (hsel : r2.selected = st.selected) :
    ∀ p ∈ undoOps st, (∃ j b, p = PrimOp.setSel j b) ∨
      ∃ i, (p = PrimOp.movEnd i ∨ ∃ k, p = PrimOp.movIdx i k) ∧ PrimOp.movEnd i ∈ redoOps r2 := by
  intro p hp
  unfold undoOps at hp
  rcases List.mem_append.mp hp with hp1 | hp2
  · obtain ⟨blk, hblk, hpblk⟩ := List.mem_flatten.mp hp1
    obtain ⟨s, hsmem, rfl⟩ := List.mem_map.mp hblk
    have hsmem2 : s ∈ st.selected := List.mem_reverse.mp hsmem
    have hmate : PrimOp.movEnd s.element.id ∈ redoOps r2 :=
      movEnd_mem_redoOps ⟨s, by rw [hsel]; exact hsmem2, rfl⟩
    rcases List.mem_append.mp hpblk with hpa | hpb
    · left
      by_cases hselb : s.element.selectable
      · rw [if_pos hselb] at hpa
        rw [List.mem_singleton.mp hpa]
        exact ⟨s.element.id, false, rfl⟩
      · rw [if_neg hselb] at hpa
        exact absurd hpa (List.not_mem_nil p)
    · rw [List.mem_singleton.mp hpb]
      exact Or.inr ⟨s.element.id, Or.inr ⟨s.index, rfl⟩, hmate⟩
  · obtain ⟨s, _, hs⟩ := List.mem_filterMap.mp hp2
    left
    by_cases hselb : s.element.selectable
    · rw [if_pos hselb] at hs
      exact ⟨s.element.id, true, (Option.some_inj.mp hs).symm⟩
    · rw [if_neg hselb] at hs
      cases hs

theorem redoOps_absorbable (st r2 : SelectCommandState) (hsel : r2.selected = st.selected) :
    ∀ p ∈ redoOps st, (∃ j b, p = PrimOp.setSel j b) ∨
      ∃ i, (p = PrimOp.movEnd i ∨ ∃ k, p = PrimOp.movIdx i k) ∧ PrimOp.movEnd i ∈ redoOps r2 := by
  intro p hp
  unfold redoOps at hp
  rcases List.mem_append.mp hp with hp1 | hp2
  · rcases List.mem_append.mp hp1 with hqa | hqb
    · obtain ⟨s, hsm, rfl⟩ := List.mem_map.mp hqa
      exact Or.inr ⟨s.element.id, Or.inl rfl,
        movEnd_mem_redoOps ⟨s, by rw [hsel]; exact hsm, rfl⟩⟩
    · obtain ⟨s, _, hs⟩ := List.mem_filterMap.mp hqb
      left
      by_cases hselb : s.element.selectable
      · rw [if_pos hselb] at hs
        exact ⟨s.element.id, false, (Option.some_inj.mp hs).symm⟩
      · rw [if_neg hselb] at hs
        cases hs
  · obtain ⟨s, _, hs⟩ := List.mem_filterMap.mp hp2
    left
    by_cases hselb : s.element.selectable
    · rw [if_pos hselb] at hs
      exact ⟨s.element.id, true, (Option.some_inj.mp hs).symm⟩
    · rw [if_neg hselb] at hs
      cases hs

theorem lastSet_cons_setSel (i j : String) (b : Bool) (ps : List PrimOp) :
    lastSet i (PrimOp.setSel j b :: ps) =
      (lastSet i ps).or (if j = i then some b else none) := by
  cases h : lastSet i ps <;> simp [lastSet_cons, h]

theorem lastSet_cons_movIdx (i j : String) (k : Nat) (ps : List PrimOp) :
    lastSet i (PrimOp.movIdx j k :: ps) = lastSet i ps := by
  cases h : lastSet i ps <;> simp [lastSet_cons, h]

theorem lastSet_cons_movEnd (i j : String) (ps : List PrimOp) :
    lastSet i (PrimOp.movEnd j :: ps) = lastSet i ps := by
  cases h : lastSet i ps <;> simp [lastSet_cons, h]

theorem lastSet_append_or (i : String) (a b : List PrimOp) :
    lastSet i (a ++ b) = (lastSet i b).or (lastSet i a) := by
  induction a with
  | nil => rw [List.nil_append, lastSet_nil, Option.or_none]
  | cons p a ih =>
    rw [List.cons_append]
    cases p with
    | setSel j v => rw [lastSet_cons_setSel, lastSet_cons_setSel, ih, Option.or_assoc]
    | movIdx j k => rw [lastSet_cons_movIdx, lastSet_cons_movIdx, ih]
    | movEnd j => rw [lastSet_cons_movEnd, lastSet_cons_movEnd, ih]

theorem lastSet_movEnds (i : String) (l : List ElementSelection) :
    lastSet i (l.map fun s => PrimOp.movEnd s.element.id) = none := by
  induction l with
  | nil => rfl
  | cons s l ih => rw [List.map_cons, lastSet_cons_movEnd, ih]

theorem lastSet_setSels (i : String) (v : Bool) (l : List ElementSelection) :
    lastSet i (l.filterMap fun s =>
        if s.element.selectable then some (PrimOp.setSel s.element.id v) else none) =
      if l.any (fun s => s.element.selectable && s.element.id = i) then some v else none := by
  induction l with
  | nil => rfl
  | cons s l ih =>
    rw [List.filterMap_cons]
    by_cases hsel : s.element.selectable
    · rw [if_pos hsel, lastSet_cons_setSel, ih, List.any_cons]
      by_cases hany : l.any (fun s => s.element.selectable && s.element.id = i) = true
      · rw [if_pos hany, Option.or_some, if_pos (by simp [hany])]
      · rw [if_neg hany, Option.none_or]
        by_cases hid : s.element.id = i
        · rw [if_pos hid, if_pos (by simp [hsel, hid])]
        · rw [if_neg hid, if_neg (by simp [hsel, hid, hany])]
    · rw [if_neg hsel, ih, List.any_cons]
      have hh : (s.element.selectable && decide (s.element.id = i)) = false := by
        simp [hsel]
      rw [hh, Bool.false_or]

theorem lastSet_undoBlocks (i : String) (l : List ElementSelection) :
    lastSet i ((l.map fun s =>
        (if s.element.selectable then [PrimOp.setSel s.element.id false] else [])
          ++ [PrimOp.movIdx s.element.id s.index]).flatten) =
      if l.any (fun s => s.element.selectable && s.element.id = i) then some false else none := by
  induction l with
  | nil => rfl
  | cons s l ih =>
    rw [List.map_cons, List.flatten_cons, lastSet_append_or, ih, List.any_cons]
    by_cases hany : l.any (fun s => s.element.selectable && s.element.id = i) = true
    · rw [if_pos hany, Option.or_some, if_pos (by simp [hany])]
    · rw [if_neg hany, Option.none_or]
      by_cases hsel : s.element.selectable
      · rw [if_pos hsel, List.cons_append, List.nil_append, lastSet_cons_setSel,
          lastSet_cons_movIdx, lastSet_nil, Option.none_or]
        by_cases hid : s.element.id = i
        · rw [if_pos hid, if_pos (by simp [hsel, hid])]
        · rw [if_neg hid, if_neg (by simp [hsel, hid, hany])]
      · rw [if_neg hsel, List.nil_append, lastSet_cons_movIdx, lastSet_nil,
          if_neg (by simp [hsel, hany])]

theorem lastSet_redoOps (st : SelectCommandState) (i : String) :
    lastSet i (redoOps st) =
      if st.selected.any (fun s => s.element.selectable && s.element.id = i) then some true
      else if st.deselected.any (fun s => s.element.selectable && s.element.id = i) then
        some false
      else none := by
  unfold redoOps
  rw [lastSet_append_or, lastSet_append_or, lastSet_movEnds, Option.or_none,
    lastSet_setSels, lastSet_setSels]
  by_cases h1 : st.selected.any (fun s => s.element.selectable && s.element.id = i) = true
  · rw [if_pos h1, if_pos h1, Option.or_some]
  · rw [if_neg h1, if_neg h1, Option.none_or]

theorem lastSet_undoOps (st : SelectCommandState) (i : String) :
    lastSet i (undoOps st) =
      if st.deselected.any (fun s => s.element.selectable && s.element.id = i) then some true
      else if st.selected.any (fun s => s.element.selectable && s.element.id = i) then
        some false
      else none := by
  unfold undoOps
  rw [lastSet_append_or, lastSet_setSels, lastSet_undoBlocks]
  rw [List.any_reverse, List.any_reverse]
  by_cases h1 : st.deselected.any (fun s => s.element.selectable && s.element.id = i) = true
  · rw [if_pos h1, if_pos h1, Option.or_some]
  · rw [if_neg h1, if_neg h1, Option.none_or]

theorem dataFold_c9 (st r2 : SelectCommandState) (hsel : r2.selected = st.selected)
    (hdes : r2.deselected = st.deselected.reverse) (d : ElemData) :
    dataFold (redoOps st ++ undoOps st ++ redoOps r2) d = dataFold (redoOps st) d := by
  rw [dataFold_eq, dataFold_eq]
  have heq : lastSet d.id (redoOps st ++ undoOps st ++ redoOps r2)
      = lastSet d.id (redoOps st) := by
    rw [lastSet_append_or, lastSet_append_or, lastSet_redoOps, lastSet_redoOps,
      lastSet_undoOps, hsel, hdes, List.any_reverse]
    by_cases h1 : st.selected.any (fun s => s.element.selectable && s.element.id = d.id) = true
      <;> by_cases h2 :
        st.deselected.any (fun s => s.element.selectable && s.element.id = d.id) = true
      <;> simp [h1, h2]
  rw [heq]

theorem allData_eq {α : Type} (t : RTree α) :
    RTree.allData t = t.data :: RTree.allDataList t.children := by
  cases t
  rfl

theorem children_data_sublist (cs : List SElem) :
    List.Sublist (cs.map RTree.data) (RTree.allDataList cs) := by
  induction cs with
  | nil => simp [RTree.allDataList]
  | cons c rest ih =>
    rw [List.map_cons, RTree.allDataList, allData_eq]
    rw [List.cons_append]
    exact List.Sublist.cons₂ _ (ih.trans (List.sublist_append_right _ _))

theorem wellFormed_parts {d : ElemData} {cs : List SElem} (h : WellFormed (.mk d cs)) :
    ((RTree.allDataList cs).map ElemData.id).Nodup := by
  unfold WellFormed at h
  rw [RTree.allData, List.map_cons, List.nodup_cons] at h
  exact h.2

theorem childIds_nodup {d : ElemData} {cs : List SElem} (h : WellFormed (.mk d cs)) :
    (cs.map (fun c => c.data.id)).Nodup := by
  have h2 := wellFormed_parts h
  have hsub : List.Sublist (cs.map (fun c => c.data.id))
      ((RTree.allDataList cs).map ElemData.id) := by
    have h3 := (children_data_sublist cs).map ElemData.id
    rw [List.map_map] at h3
    exact h3
  exact h2.sublist hsub

theorem allData_sublist_of_mem {α : Type} {c : RTree α} {cs : List (RTree α)} (h : c ∈ cs) :
    List.Sublist (RTree.allData c) (RTree.allDataList cs) := by
  induction cs with
  | nil => cases h
  | cons x rest ih =>
    rw [RTree.allDataList]
    rcases List.mem_cons.mp h with rfl | hmem
    · exact List.sublist_append_left _ _
    · exact (ih hmem).trans (List.sublist_append_right _ _)

theorem wellFormed_child {d : ElemData} {cs : List SElem} (h : WellFormed (RTree.mk d cs)) :
    ∀ c ∈ cs, WellFormed c := by
  intro c hc
  exact (wellFormed_parts h).sublist ((allData_sublist_of_mem hc).map ElemData.id)

theorem allDataList_nodup_cons {c : SElem} {cs : List SElem}
    (h : ((RTree.allDataList (c :: cs)).map ElemData.id).Nodup) :
    WellFormed c ∧ ((RTree.allDataList cs).map ElemData.id).Nodup := by
  rw [RTree.allDataList, List.map_append] at h
  exact ⟨h.of_append_left, h.of_append_right⟩

theorem mem_filterMap_setSel {v : Bool} {l : List ElementSelection} {q : PrimOp}
    (hq : q ∈ l.filterMap fun s =>
      if s.element.selectable then some (PrimOp.setSel s.element.id v) else none) :
    ∃ j b, q = PrimOp.setSel j b := by
  obtain ⟨s, _, hs⟩ := List.mem_filterMap.mp hq
  by_cases hsel : s.element.selectable
  · rw [if_pos hsel] at hs
    exact ⟨s.element.id, v, (Option.some_inj.mp hs).symm⟩
  · rw [if_neg hsel] at hs
    cases hs

theorem listFold_redoOps_eq_moves (st3 : SelectCommandState) (l : List SElem) :
    listFold (redoOps st3) l
      = listFold (st3.selected.map fun s => PrimOp.movEnd s.element.id) l := by
  unfold redoOps
  rw [List.append_assoc, listFold_append]
  rw [listFold_setSel_eq]
  intro q hq
  rcases List.mem_append.mp hq with h | h
  · exact mem_filterMap_setSel h
  · exact mem_filterMap_setSel h

theorem applyOps_c9 (st r2 : SelectCommandState) (hsel : r2.selected = st.selected)
    (hdes : r2.deselected = st.deselected.reverse) (t : SElem) (hwf : WellFormed t) :
    applyOps (redoOps st ++ undoOps st ++ redoOps r2) t = applyOps (redoOps st) t := by
  revert hwf
  induction t using rtree_ind
    (Q := fun cs => ((RTree.allDataList cs).map ElemData.id).Nodup →
      cs.map (applyOps (redoOps st ++ undoOps st ++ redoOps r2))
        = cs.map (applyOps (redoOps st))) with
  | h1 d cs hQ =>
    intro hwf
    rw [applyOps_mk, applyOps_mk, hQ (wellFormed_parts hwf), dataFold_c9 st r2 hsel hdes d]
    congr 1
    have hnd : ((cs.map (applyOps (redoOps st))).map (fun c => c.data.id)).Nodup := by
      rw [List.map_map]
      rw [show ((fun c : SElem => c.data.id) ∘ applyOps (redoOps st))
          = fun c : SElem => (applyOps (redoOps st) c).data.id from rfl]
      rw [List.map_congr_left (fun c _ => applyOps_data_id (redoOps st) c)]
      exact childIds_nodup hwf
    rw [listFold_absorb (redoOps_shape r2) (redoOps st ++ undoOps st)
      (fun p hp => (List.mem_append.mp hp).elim
        (redoOps_absorbable st r2 hsel p)
        (undoOps_absorbable st r2 hsel p))
      (cs.map (applyOps (redoOps st))) hnd]
    rw [listFold_redoOps_eq_moves r2, listFold_redoOps_eq_moves st, hsel]
  | h2 => rfl
  | h3 c cs hc hcs =>
    rename_i hnd
    obtain ⟨h1, h2⟩ := allDataList_nodup_cons hnd
    rw [List.map_cons, List.map_cons, hc h1, hcs h2]

/-- **C9**: for every well-formed model root and every `SelectAction`,
`SelectCommand.execute` produces exactly the state that `redo` produces after
the capture phase — it captures the `selected`/`deselected` lists and then
invokes `redo` — and the model state after a subsequent undo-then-redo is
equal to the state after `execute`. -/
theorem selectCommand_execute_capture_redo (a : SelectAction) (t : SElem)
    (hwf : WellFormed t) :
    (SelectCommand.execute a t).1 = captureSelection a t ∧
    (SelectCommand.execute a t).2 = SelectCommand.redo (captureSelection a t) t ∧
    SelectCommand.redo
        (SelectCommand.undo (SelectCommand.execute a t).1 (SelectCommand.execute a t).2).1
        (SelectCommand.undo (SelectCommand.execute a t).1 (SelectCommand.execute a t).2).2
      = (SelectCommand.execute a t).2 := by
  refine ⟨rfl, rfl, ?_⟩
  show SelectCommand.redo ⟨(captureSelection a t).selected,
      (captureSelection a t).deselected.reverse⟩
      (applyOps (undoOps (captureSelection a t))
        (applyOps (redoOps (captureSelection a t)) t))
    = applyOps (redoOps (captureSelection a t)) t
  unfold SelectCommand.redo
  rw [← applyOps_append, ← applyOps_append, ← List.append_assoc]
  exact applyOps_c9 (captureSelection a t)
    ⟨(captureSelection a t).selected, (captureSelection a t).deselected.reverse⟩ rfl rfl t hwf

/-- Witness for C9 at a concrete model: the root `[a, b, c]` is well formed,
and the property holds there for selecting `a` and `b`. -/
theorem selectCommand_execute_capture_redo_witness :
    WellFormed abcRoot ∧
    ((SelectCommand.execute ⟨["a", "b"], []⟩ abcRoot).1
        = captureSelection ⟨["a", "b"], []⟩ abcRoot ∧
      (SelectCommand.execute ⟨["a", "b"], []⟩ abcRoot).2
        = SelectCommand.redo (captureSelection ⟨["a", "b"], []⟩ abcRoot) abcRoot ∧
      SelectCommand.redo
          (SelectCommand.undo (SelectCommand.execute ⟨["a", "b"], []⟩ abcRoot).1
            (SelectCommand.execute ⟨["a", "b"], []⟩ abcRoot).2).1
          (SelectCommand.undo (SelectCommand.execute ⟨["a", "b"], []⟩ abcRoot).1
            (SelectCommand.execute ⟨["a", "b"], []⟩ abcRoot).2).2
        = (SelectCommand.execute ⟨["a", "b"], []⟩ abcRoot).2) :=
  ⟨by unfold WellFormed; decide,
    selectCommand_execute_capture_redo ⟨["a", "b"], []⟩ abcRoot (by unfold WellFormed; decide)⟩

/-- **C2**: `SelectCommand.redo` performs its three phases in program order —
first every captured selected element is moved to the end of its sibling
list (iterating the captured list in order), then `selected` is cleared on
the captured deselected elements, then `selected` is set on the captured
selected elements — and consequently every captured selected selectable
element ends with `selected = true`, even when it also occurs in the
deselected list. -/
theorem selectCommand_redo_phases (st : SelectCommandState) (t : SElem) :
    (SelectCommand.redo st t =
      applyOps (st.selected.map (fun s => PrimOp.movEnd s.element.id)
        ++ (st.deselected.filterMap fun s =>
            if s.element.selectable then some (PrimOp.setSel s.element.id false) else none)
        ++ (st.selected.filterMap fun s =>
            if s.element.selectable then some (PrimOp.setSel s.element.id true) else none)) t) ∧
    ∀ s ∈ st.selected, s.element.selectable →
      ∀ d ∈ RTree.allData (SelectCommand.redo st t), d.id = s.element.id →
        d.selected = true := by
  refine ⟨rfl, ?_⟩
  intro s hs hsel d hd hid
  have hperm := applyOps_allData_perm (redoOps st) t
  have hd2 : d ∈ (RTree.allData t).map (dataFold (redoOps st)) := hperm.mem_iff.mp hd
  obtain ⟨d0, hd0, rfl⟩ := List.mem_map.mp hd2
  have hid0 : d0.id = s.element.id := by
    rw [dataFold_eq] at hid
    exact hid
  rw [dataFold_eq, lastSet_redoOps]
  rw [if_pos (List.any_eq_true.mpr ⟨s, hs, by simp [hsel, hid0]⟩)]
  rfl

/-- Witness for C2 on the concrete root `[a, b, c]` with `a` both selected
and deselected: after `redo` the element `a` carries `selected = true`. -/
theorem selectCommand_redo_phases_witness :
    (⟨⟨"a", .other, true, false⟩, 0⟩ : ElementSelection)
        ∈ (captureSelection ⟨["a"], ["a"]⟩ abcRoot).selected ∧
    (⟨"a", .other, true, true⟩ : ElemData)
        ∈ RTree.allData
          (SelectCommand.redo (captureSelection ⟨["a"], ["a"]⟩ abcRoot) abcRoot) ∧
    (⟨"a", .other, true, true⟩ : ElemData).selected = true :=
  ⟨by decide, by decide,
    (selectCommand_redo_phases (captureSelection ⟨["a"], ["a"]⟩ abcRoot) abcRoot).2
      ⟨⟨"a", .other, true, false⟩, 0⟩ (by decide) (by decide)
      ⟨"a", .other, true, true⟩ (by decide) (by decide)⟩

theorem connectedEdges_nil (t : SElem) : connectedEdges t [] = [] := by
  unfold connectedEdges
  rw [List.filterMap_eq_nil]
  intro p _
  rcases p with ⟨d, n⟩
  cases hk : d.kind with
  | node => rfl
  | edge src tgt => simp [List.contains]
  | other => rfl

theorem captureOne_eq_none {t : SElem} {i : String}
    (hf : (flattenElem t).find? (fun p => p.1.id = i) = none) : captureOne t i = none := by
  unfold captureOne
  rw [hf]

theorem captureOne_eq_found {t : SElem} {i : String} {p : ElemData × Nat}
    (hf : (flattenElem t).find? (fun p => p.1.id = i) = some p) :
    captureOne t i = if p.1.selectable then some ⟨p.1, p.2⟩ else none := by
  unfold captureOne
  rw [hf]

theorem captureOne_id {t : SElem} {i : String} {s : ElementSelection}
    (h : captureOne t i = some s) : s.element.id = i := by
  cases hf : (flattenElem t).find? (fun p => p.1.id = i) with
  | none => rw [captureOne_eq_none hf] at h; cases h
  | some p =>
    rw [captureOne_eq_found hf] at h
    have hp := List.find?_some (p := fun p : ElemData × Nat => decide (p.1.id = i)) hf
    by_cases hsel : p.1.selectable
    · rw [if_pos hsel] at h
      rw [← Option.some_inj.mp h]
      simpa using hp
    · rw [if_neg hsel] at h
      cases h

/-- **C3**: when `SelectCommand.execute` runs, the captured `selected` list
is exactly the connected-edge selections (every edge whose `sourceId` or
`targetId` is a captured node id, with their captured sibling indices)
prepended to the directly captured selections, so edges precede nodes in
the captured order; and in the concrete scenario — node `N1` selected, edge
`E1 = N2→N1`, unrelated edge `E2` — the captured order is `[E1, N1]` and
after `execute` (which ends in `redo`) `E1` and `N1` are moved to the end of
the children while `E2` keeps its sibling index 0. -/
theorem selectCommand_connected_edges (a : SelectAction) (t : SElem) :
    ((captureSelection a t).selected
      = connectedEdges t (capturedNodeIds t a.selectedElementsIDs)
          ++ a.selectedElementsIDs.filterMap (captureOne t)) ∧
    (∀ x ∈ connectedEdges t (capturedNodeIds t a.selectedElementsIDs),
      ∃ src tgt, x.element.kind = .edge src tgt ∧
        (src ∈ capturedNodeIds t a.selectedElementsIDs
          ∨ tgt ∈ capturedNodeIds t a.selectedElementsIDs)) ∧
    (∀ x ∈ a.selectedElementsIDs.filterMap (captureOne t),
      x.element.id ∈ a.selectedElementsIDs) ∧
    ((captureSelection ⟨["N1"], []⟩ scenarioRoot).selected
      = [⟨⟨"E1", .edge "N2" "N1", true, false⟩, 1⟩, ⟨⟨"N1", .node, true, false⟩, 3⟩]) ∧
    (flattenElem (SelectCommand.execute ⟨["N1"], []⟩ scenarioRoot).2
      = [(⟨"E2", .edge "N2" "N2", true, false⟩, 0),
         (⟨"N2", .node, true, false⟩, 1),
         (⟨"E1", .edge "N2" "N1", true, true⟩, 2),
         (⟨"N1", .node, true, true⟩, 3)]) := by
  refine ⟨?_, ?_, ?_, by decide, by decide⟩
  · show (let base := a.selectedElementsIDs.filterMap (captureOne t)
      let nodeIds := capturedNodeIds t a.selectedElementsIDs
      let sel := if nodeIds.length > 0 then connectedEdges t nodeIds ++ base else base
      let des := a.deselectedElementsIDs.filterMap (captureOne t)
      (⟨sel, des⟩ : SelectCommandState)).selected = _
    simp only
    by_cases h : (capturedNodeIds t a.selectedElementsIDs).length > 0
    · rw [if_pos h]
    · rw [if_neg h]
      have hnil : capturedNodeIds t a.selectedElementsIDs = [] := by
        cases hc : capturedNodeIds t a.selectedElementsIDs with
        | nil => rfl
        | cons y ys => rw [hc] at h; simp at h
      rw [hnil, connectedEdges_nil, List.nil_append]
  · intro x hx
    unfold connectedEdges at hx
    obtain ⟨⟨d, n⟩, hmem, heq⟩ := List.mem_filterMap.mp hx
    split at heq
    next src tgt hk =>
      split at heq
      next hcond =>
        obtain rfl := Option.some_inj.mp heq
        refine ⟨src, tgt, hk, ?_⟩
        rcases Bool.or_eq_true_iff.mp hcond with hh | hh
        · exact Or.inl (List.mem_of_elem_eq_true hh)
        · exact Or.inr (List.mem_of_elem_eq_true hh)
      next => cases heq
    next => cases heq
  · intro x hx
    obtain ⟨i, hi, hcap⟩ := List.mem_filterMap.mp hx
    rw [captureOne_id hcap]
    exact hi

/-- Witness for C3: the entry for `E1` really is in the connected-edge list
of the scenario and the theorem yields its edge shape. -/
theorem selectCommand_connected_edges_witness :
    ((⟨⟨"E1", .edge "N2" "N1", true, false⟩, 1⟩ : ElementSelection)
      ∈ connectedEdges scenarioRoot (capturedNodeIds scenarioRoot ["N1"])) ∧
    (∃ src tgt,
      (⟨⟨"E1", .edge "N2" "N1", true, false⟩, 1⟩ : ElementSelection).element.kind
          = .edge src tgt ∧
        (src ∈ capturedNodeIds scenarioRoot ["N1"]
          ∨ tgt ∈ capturedNodeIds scenarioRoot ["N1"])) :=
  ⟨by decide,
    (selectCommand_connected_edges ⟨["N1"], []⟩ scenarioRoot).2.1
      ⟨⟨"E1", .edge "N2" "N1", true, false⟩, 1⟩ (by decide)⟩

theorem movEnd_found {cid : String} {cs : List SElem} {c : SElem}
    (h : cs.find? (fun x => x.data.id = cid) = some c) :
    applyPrimList (.movEnd cid) cs = cs.eraseP (fun x => x.data.id = cid) ++ [c] := by
  have hmem := List.mem_of_find?_eq_some h
  have hpc := List.find?_some (p := fun x : SElem => decide (x.data.id = cid)) h
  have hlen : (cs.eraseP (fun x => x.data.id = cid)).length = cs.length - 1 :=
    List.length_eraseP_of_mem hmem hpc
  show moveInList cid (cs.length - 1) cs = _
  rw [moveInList_eq_some h, hlen, Nat.min_self]
  rw [← hlen, List.insertIdx_length_self]

theorem first_decomp_unique {α : Type} {p : α → Bool} :
    ∀ {pre : List α} {cs pre' suf suf' : List α} {e e' : α},
      cs = pre ++ e :: suf → (∀ x ∈ pre, ¬p x = true) → p e = true →
      cs = pre' ++ e' :: suf' → (∀ x ∈ pre', ¬p x = true) → p e' = true →
      pre = pre' ∧ e = e' ∧ suf = suf' := by
  intro pre
  induction pre with
  | nil =>
    intro cs pre' suf suf' e e' h1 _ hpe h2 hpre' hpe'
    cases pre' with
    | nil =>
      rw [List.nil_append] at h1 h2
      rw [h1] at h2
      exact ⟨rfl, (List.cons.injEq _ _ _ _).mp h2 |>.1, (List.cons.injEq _ _ _ _).mp h2 |>.2⟩
    | cons y ys =>
      rw [List.nil_append] at h1
      rw [h1] at h2
      have : e = y := ((List.cons.injEq _ _ _ _).mp h2).1
      exact absurd hpe (by rw [this]; exact hpre' y (List.mem_cons_self y ys))
  | cons x pr ih =>
    intro cs pre' suf suf' e e' h1 hpre hpe h2 hpre' hpe'
    cases pre' with
    | nil =>
      rw [List.nil_append] at h2
      rw [h2] at h1
      have : e' = x := ((List.cons.injEq _ _ _ _).mp h1).1
      exact absurd hpe' (by rw [this]; exact hpre x (List.mem_cons_self x pr))
    | cons y ys =>
      rw [List.cons_append] at h1 h2
      rw [h1] at h2
      have hxy : x = y := ((List.cons.injEq _ _ _ _).mp h2).1
      have htail : pr ++ e :: suf = ys ++ e' :: suf' := ((List.cons.injEq _ _ _ _).mp h2).2
      obtain ⟨hp, he, hs⟩ := ih rfl (fun z hz => hpre z (List.mem_cons_of_mem x hz)) hpe
        htail (fun z hz => hpre' z (List.mem_cons_of_mem y hz)) hpe'
      exact ⟨by rw [hxy, hp], he, hs⟩

theorem perm_any {α : Type} {l1 l2 : List α} (h : List.Perm l1 l2) (p : α → Bool) :
    l1.any p = l2.any p := by
  rw [Bool.eq_iff_iff, List.any_eq_true, List.any_eq_true]
  constructor
  · rintro ⟨x, hx, hp⟩
    exact ⟨x, h.mem_iff.mp hx, hp⟩
  · rintro ⟨x, hx, hp⟩
    exact ⟨x, h.mem_iff.mpr hx, hp⟩

theorem listFold_undoBlocks_eq_moves (l : List ElementSelection) (cs : List SElem) :
    listFold ((l.map fun s =>
        (if s.element.selectable then [PrimOp.setSel s.element.id false] else [])
          ++ [PrimOp.movIdx s.element.id s.index]).flatten) cs
      = listFold (l.map fun s => PrimOp.movIdx s.element.id s.index) cs := by
  induction l generalizing cs with
  | nil => rfl
  | cons s l ih =>
    rw [List.map_cons, List.flatten_cons, listFold_append, List.map_cons, listFold_cons, ih]
    congr 1
    by_cases hsel : s.element.selectable
    · rw [if_pos hsel]
      rfl
    · rw [if_neg hsel]
      rfl

theorem listFold_undoOps_eq_moves (st : SelectCommandState) (cs : List SElem) :
    listFold (undoOps st) cs
      = listFold (st.selected.reverse.map fun s => PrimOp.movIdx s.element.id s.index) cs := by
  unfold undoOps
  rw [listFold_append, listFold_setSel_eq (fun q hq => mem_filterMap_setSel hq),
    listFold_undoBlocks_eq_moves]

theorem prefix_decomp {α : Type} :
    ∀ {pre : List α} {cs pre1 suf suf1 : List α} {e c : α},
      cs = pre ++ e :: suf → cs = pre1 ++ c :: suf1 → pre.length < pre1.length →
      ∃ mid, pre1 = pre ++ e :: mid := by
  intro pre
  induction pre with
  | nil =>
    intro cs pre1 suf suf1 e c h1 h2 hlt
    cases pre1 with
    | nil => simp at hlt
    | cons z zs =>
      rw [List.nil_append] at h1
      rw [h1, List.cons_append] at h2
      have hz : e = z := ((List.cons.injEq _ _ _ _).mp h2).1
      exact ⟨zs, by rw [List.nil_append, hz]⟩
  | cons x pr ih =>
    intro cs pre1 suf suf1 e c h1 h2 hlt
    cases pre1 with
    | nil => simp at hlt
    | cons z zs =>
      rw [List.cons_append] at h1 h2
      rw [h1] at h2
      have hxz : x = z := ((List.cons.injEq _ _ _ _).mp h2).1
      have htail : pr ++ e :: suf = zs ++ c :: suf1 := ((List.cons.injEq _ _ _ _).mp h2).2
      obtain ⟨mid, hmid⟩ := ih rfl htail (by simp at hlt; omega)
      exact ⟨mid, by rw [List.cons_append, ← hxz, hmid]⟩

theorem moves_roundtrip :
    ∀ (sel : List ElementSelection) (cs : List SElem),
      (cs.map (fun c => c.data.id)).Nodup →
      (∀ s ∈ sel, IdxFits s cs) →
      ((sel.filter (fun s => cs.any (fun c => c.data.id = s.element.id))).Pairwise
        (fun s1 s2 => s2.index < s1.index)) →
      listFold (sel.reverse.map fun s => PrimOp.movIdx s.element.id s.index)
        (listFold (sel.map fun s => PrimOp.movEnd s.element.id) cs) = cs := by
  intro sel
  induction sel with
  | nil =>
    intro cs _ _ _
    rfl
  | cons s1 rest ih =>
    intro cs hnd hfits hord
    rw [List.map_cons, listFold_cons, List.reverse_cons, List.map_append, listFold_append]
    by_cases hrel : cs.any (fun c => c.data.id = s1.element.id) = true
    · obtain ⟨c, hfind⟩ :
          ∃ c, cs.find? (fun x => x.data.id = s1.element.id) = some c := by
        cases hf : cs.find? (fun x => x.data.id = s1.element.id) with
        | some c => exact ⟨c, rfl⟩
        | none =>
          rw [List.find?_eq_none] at hf
          obtain ⟨x, hx, hp⟩ := List.any_eq_true.mp hrel
          exact absurd hp (hf x hx)
      obtain ⟨pre1, suf1, hcs1, hpre1, hlen1⟩ := hfits s1 (List.mem_cons_self s1 rest) c hfind
      have hpc : c.data.id = s1.element.id := by
        simpa using List.find?_some (p := fun x : SElem => decide (x.data.id = s1.element.id))
          hfind
      have hno : ∀ x ∈ cs.eraseP (fun x => x.data.id = s1.element.id),
          ¬x.data.id = s1.element.id := nodup_ids_no_eraseP hnd hfind
      have herase : cs.eraseP (fun x => x.data.id = s1.element.id) = pre1 ++ suf1 := by
        rw [hcs1, List.eraseP_append_right _ (fun b hb => by simpa using hpre1 b hb),
          List.eraseP_cons_of_pos (by simpa using hpc)]
      rw [movEnd_found hfind, herase]
      have hperm : List.Perm ((pre1 ++ suf1) ++ [c]) cs := by
        refine (List.perm_append_singleton c (pre1 ++ suf1)).trans ?_
        rw [hcs1]
        exact List.perm_middle.symm
      have hnd2 : (((pre1 ++ suf1) ++ [c]).map (fun c => c.data.id)).Nodup :=
        ((hperm.map (fun c => c.data.id)).nodup_iff).mpr hnd
      have hno2 : ∀ x ∈ pre1 ++ suf1, ¬x.data.id = s1.element.id := by
        rw [← herase]
        exact hno
      have hinj := List.inj_on_of_nodup_map hnd
      have hordtail := (List.pairwise_cons.mp (by
        rwa [List.filter_cons_of_pos (by simpa using hrel)] at hord))
      have hfits2 : ∀ s ∈ rest, IdxFits s ((pre1 ++ suf1) ++ [c]) := by
        intro s hs c2 hfind2
        by_cases hid : s.element.id = s1.element.id
        · exfalso
          have hfindc : cs.find? (fun x => x.data.id = s.element.id) = some c := by
            rw [show (fun x : SElem => decide (x.data.id = s.element.id))
              = fun x : SElem => decide (x.data.id = s1.element.id) from by
                funext x; rw [hid]]
            exact hfind
          obtain ⟨pre, suf, hcs2, hpre2, hlen2⟩ := hfits s (List.mem_cons_of_mem s1 hs) c hfindc
          obtain ⟨heqpre, _, _⟩ := first_decomp_unique (p := fun x : SElem =>
              decide (x.data.id = s1.element.id)) hcs1 (fun x hx => by simpa using hpre1 x hx)
            (by simpa using hpc) hcs2
            (fun x hx => by simp only [decide_eq_true_eq]; rw [← hid]; exact hpre2 x hx)
            (by simpa using hpc)
          have hlts : s.index < s1.index := hordtail.1 s (List.mem_filter.mpr
            ⟨hs, by rw [show (fun c : SElem => decide (c.data.id = s.element.id))
              = fun c : SElem => decide (c.data.id = s1.element.id) from by
                funext x; rw [hid]]; exact hrel⟩)
          rw [← hlen1, ← hlen2, heqpre] at hlts
          exact Nat.lt_irrefl _ hlts
        · have hc2mem : c2 ∈ cs := hperm.mem_iff.mp (List.mem_of_find?_eq_some hfind2)
          have hpc2 : c2.data.id = s.element.id := by
            simpa using List.find?_some (p := fun x : SElem =>
              decide (x.data.id = s.element.id)) hfind2
          obtain ⟨e, hfinde⟩ :
              ∃ e, cs.find? (fun x => x.data.id = s.element.id) = some e := by
            cases hf : cs.find? (fun x => x.data.id = s.element.id) with
            | some e => exact ⟨e, rfl⟩
            | none =>
              rw [List.find?_eq_none] at hf
              exact absurd (by simpa using hpc2) (by simpa using hf c2 hc2mem)
          obtain ⟨pre, suf, hcs2, hpre2, hlen2⟩ := hfits s (List.mem_cons_of_mem s1 hs) e hfinde
          have hec2 : c2 = e := by
            refine hinj hc2mem (List.mem_of_find?_eq_some hfinde) ?_
            have hpe : e.data.id = s.element.id := by
              simpa using List.find?_some (p := fun x : SElem =>
                decide (x.data.id = s.element.id)) hfinde
            rw [hpc2, hpe]
          have hrels : cs.any (fun c => c.data.id = s.element.id) = true :=
            List.any_eq_true.mpr ⟨c2, hc2mem, by simpa using hpc2⟩
          have hlts : s.index < s1.index := hordtail.1 s (List.mem_filter.mpr ⟨hs, hrels⟩)
          have hltpre : pre.length < pre1.length := by
            rw [hlen1, hlen2]
            exact hlts
          obtain ⟨mid, hmid⟩ := prefix_decomp hcs2 hcs1 hltpre
          refine ⟨pre, (mid ++ suf1) ++ [c], ?_, hpre2, hlen2⟩
          rw [hmid, ← hec2]
          simp [List.append_assoc]
      have hord2 : ((rest.filter
          (fun s => ((pre1 ++ suf1) ++ [c]).any (fun c => c.data.id = s.element.id))).Pairwise
            (fun s1 s2 => s2.index < s1.index)) := by
        rw [List.filter_congr (fun s _ => perm_any hperm
          (fun c => decide (c.data.id = s.element.id)))]
        exact hordtail.2
      rw [ih ((pre1 ++ suf1) ++ [c]) hnd2 hfits2 hord2]
      show applyPrimList (PrimOp.movIdx s1.element.id s1.index) ((pre1 ++ suf1) ++ [c]) = cs
      have hfind3 : ((pre1 ++ suf1) ++ [c]).find?
          (fun x => x.data.id = s1.element.id) = some c := by
        rw [List.find?_append]
        have h1 : (pre1 ++ suf1).find? (fun x => x.data.id = s1.element.id) = none := by
          rw [List.find?_eq_none]
          intro x hx
          simpa using hno2 x hx
        rw [h1, Option.none_or, List.find?_cons_of_pos _ (by simpa using hpc)]
      show moveInList s1.element.id s1.index ((pre1 ++ suf1) ++ [c]) = cs
      rw [moveInList_eq_some hfind3]
      have herase3 : ((pre1 ++ suf1) ++ [c]).eraseP
          (fun x => x.data.id = s1.element.id) = pre1 ++ suf1 := by
        rw [List.eraseP_append_right _ (fun b hb => by simpa using hno2 b hb),
          List.eraseP_cons_of_pos (by simpa using hpc), List.append_nil]
      rw [herase3]
      have hminn : min s1.index (pre1 ++ suf1).length = pre1.length := by
        rw [← hlen1, List.length_append]
        omega
      rw [hminn, insertIdx_eq_take_cons_drop c (by simp),
        List.take_left, List.drop_left]
      exact hcs1.symm
    · have hrel2 : ∀ x ∈ cs, ¬(RTree.data x).id = s1.element.id := by simpa using hrel
      have hfind : cs.find? (fun c => c.data.id = s1.element.id) = none := by
        rw [List.find?_eq_none]
        intro x hx
        simpa using hrel2 x hx
      have h1 : applyPrimList (PrimOp.movEnd s1.element.id) cs = cs := moveInList_eq_none hfind
      rw [h1]
      have hordtail : ((rest.filter
          (fun s => cs.any (fun c => c.data.id = s.element.id))).Pairwise
            (fun s1 s2 => s2.index < s1.index)) := by
        rwa [List.filter_cons_of_neg (by simpa using hrel)] at hord
      rw [ih cs hnd (fun s hs => hfits s (List.mem_cons_of_mem s1 hs)) hordtail]
      show moveInList s1.element.id s1.index cs = cs
      exact moveInList_eq_none hfind

theorem listFold_roundtrip (st : SelectCommandState) (cs : List SElem)
    (hnd : (cs.map (fun c => c.data.id)).Nodup)
    (hfits : ∀ s ∈ st.selected, IdxFits s cs)
    (hord : ((st.selected.filter
      (fun s => cs.any (fun c => c.data.id = s.element.id))).Pairwise
        (fun s1 s2 => s2.index < s1.index))) :
    listFold (redoOps st ++ undoOps st) cs = cs := by
  rw [listFold_append, listFold_redoOps_eq_moves, listFold_undoOps_eq_moves]
  exact moves_roundtrip st.selected cs hnd hfits hord

theorem dataFold_c1 (st : SelectCommandState) (d : ElemData)
    (hselflag : ∀ s ∈ st.selected, s.element.id = d.id → d.selected = false)
    (hdesflag : ∀ s ∈ st.deselected, s.element.id = d.id → d.selected = true) :
    dataFold (redoOps st ++ undoOps st) d = d := by
  rw [dataFold_eq, lastSet_append_or, lastSet_redoOps, lastSet_undoOps]
  by_cases h1 : st.deselected.any (fun s => s.element.selectable && s.element.id = d.id) = true
  · rw [if_pos h1, Option.or_some]
    obtain ⟨s, hs, hp⟩ := List.any_eq_true.mp h1
    simp only [Bool.and_eq_true, decide_eq_true_eq] at hp
    have hval := hdesflag s hs hp.2
    simp only [Option.getD_some]
    rw [← hval]
  · rw [if_neg h1]
    by_cases h2 : st.selected.any (fun s => s.element.selectable && s.element.id = d.id) = true
    · rw [if_pos h2, Option.or_some]
      obtain ⟨s, hs, hp⟩ := List.any_eq_true.mp h2
      simp only [Bool.and_eq_true, decide_eq_true_eq] at hp
      have hval := hselflag s hs hp.2
      simp only [Option.getD_some]
      rw [← hval]
    · rw [if_neg h2, Option.none_or, if_neg h2, if_neg h1]
      simp only [Option.getD_none]

theorem wellFormed_tail {t : SElem} (hwf : WellFormed t) :
    ((RTree.allDataList t.children).map ElemData.id).Nodup := by
  unfold WellFormed at hwf
  rw [allData_eq, List.map_cons, List.nodup_cons] at hwf
  exact hwf.2

theorem applyOps_c1 (st : SelectCommandState) (t : SElem) (hwf : WellFormed t)
    (hfits : ∀ s ∈ st.selected, ∀ cs ∈ childLists t, IdxFits s cs)
    (hord : ∀ cs ∈ childLists t, ((st.selected.filter
      (fun s => cs.any (fun c => c.data.id = s.element.id))).Pairwise
        (fun s1 s2 => s2.index < s1.index)))
    (hselflag : ∀ s ∈ st.selected, ∀ d ∈ RTree.allData t, s.element.id = d.id →
      d.selected = false)
    (hdesflag : ∀ s ∈ st.deselected, ∀ d ∈ RTree.allData t, s.element.id = d.id →
      d.selected = true) :
    applyOps (redoOps st ++ undoOps st) t = t := by
  revert hwf hfits hord hselflag hdesflag
  induction t using rtree_ind
    (Q := fun cs => ((RTree.allDataList cs).map ElemData.id).Nodup →
      (∀ s ∈ st.selected, ∀ l ∈ childListsChildren cs, IdxFits s l) →
      (∀ l ∈ childListsChildren cs, ((st.selected.filter
        (fun s => l.any (fun c => c.data.id = s.element.id))).Pairwise
          (fun s1 s2 => s2.index < s1.index))) →
      (∀ s ∈ st.selected, ∀ d ∈ RTree.allDataList cs, s.element.id = d.id →
        d.selected = false) →
      (∀ s ∈ st.deselected, ∀ d ∈ RTree.allDataList cs, s.element.id = d.id →
        d.selected = true) →
      cs.map (applyOps (redoOps st ++ undoOps st)) = cs) with
  | h1 d cs hQ =>
    intro hwf hfits hord hselflag hdesflag
    rw [applyOps_mk]
    have hcl : childLists (RTree.mk d cs) = cs :: childListsChildren cs := rfl
    have hchildren : cs.map (applyOps (redoOps st ++ undoOps st)) = cs := by
      apply hQ (wellFormed_parts hwf)
      · intro s hs l hl
        exact hfits s hs l (by rw [hcl]; exact List.mem_cons_of_mem cs hl)
      · intro l hl
        exact hord l (by rw [hcl]; exact List.mem_cons_of_mem cs hl)
      · intro s hs d0 hd0 hid
        exact hselflag s hs d0 (by rw [allData_eq]; exact List.mem_cons_of_mem _ hd0) hid
      · intro s hs d0 hd0 hid
        exact hdesflag s hs d0 (by rw [allData_eq]; exact List.mem_cons_of_mem _ hd0) hid
    rw [hchildren]
    congr 1
    · apply dataFold_c1 st d
      · intro s hs hid
        exact hselflag s hs d (by rw [allData_eq]; exact List.mem_cons_self _ _) hid
      · intro s hs hid
        exact hdesflag s hs d (by rw [allData_eq]; exact List.mem_cons_self _ _) hid
    · exact listFold_roundtrip st cs (childIds_nodup hwf)
        (fun s hs => hfits s hs cs (by rw [hcl]; exact List.mem_cons_self cs _))
        (hord cs (by rw [hcl]; exact List.mem_cons_self cs _))
  | h2 => rfl
  | h3 c cs hc hcs =>
    rename_i hnd hfits hord hselflag hdesflag
    obtain ⟨h1, h2⟩ := allDataList_nodup_cons hnd
    have hccl : childListsChildren (c :: cs) = childLists c ++ childListsChildren cs := rfl
    have hadl : RTree.allDataList (c :: cs) = RTree.allData c ++ RTree.allDataList cs := rfl
    rw [List.map_cons]
    rw [hc h1
      (fun s hs l hl => hfits s hs l (by rw [hccl]; exact List.mem_append_left _ hl))
      (fun l hl => hord l (by rw [hccl]; exact List.mem_append_left _ hl))
      (fun s hs d0 hd0 hid => hselflag s hs d0
        (by rw [hadl]; exact List.mem_append_left _ hd0) hid)
      (fun s hs d0 hd0 hid => hdesflag s hs d0
        (by rw [hadl]; exact List.mem_append_left _ hd0) hid)]
    rw [hcs h2
      (fun s hs l hl => hfits s hs l (by rw [hccl]; exact List.mem_append_right _ hl))
      (fun l hl => hord l (by rw [hccl]; exact List.mem_append_right _ hl))
      (fun s hs d0 hd0 hid => hselflag s hs d0
        (by rw [hadl]; exact List.mem_append_right _ hd0) hid)
      (fun s hs d0 hd0 hid => hdesflag s hs d0
        (by rw [hadl]; exact List.mem_append_right _ hd0) hid)]

theorem captureSelection_selected_eq (a : SelectAction) (t : SElem) :
    (captureSelection a t).selected
      = connectedEdges t (capturedNodeIds t a.selectedElementsIDs)
          ++ a.selectedElementsIDs.filterMap (captureOne t) := by
  show (let base := a.selectedElementsIDs.filterMap (captureOne t)
    let nodeIds := capturedNodeIds t a.selectedElementsIDs
    let sel := if nodeIds.length > 0 then connectedEdges t nodeIds ++ base else base
    let des := a.deselectedElementsIDs.filterMap (captureOne t)
    (⟨sel, des⟩ : SelectCommandState)).selected = _
  simp only
  by_cases h : (capturedNodeIds t a.selectedElementsIDs).length > 0
  · rw [if_pos h]
  · rw [if_neg h]
    have hnil : capturedNodeIds t a.selectedElementsIDs = [] := by
      cases hc : capturedNodeIds t a.selectedElementsIDs with
      | nil => rfl
      | cons y ys => rw [hc] at h; simp at h
    rw [hnil, connectedEdges_nil, List.nil_append]

theorem captureOne_mem_flatten {t : SElem} {i : String} {s : ElementSelection}
    (h : captureOne t i = some s) : (s.element, s.index) ∈ flattenElem t := by
  cases hf : (flattenElem t).find? (fun p => p.1.id = i) with
  | none => rw [captureOne_eq_none hf] at h; cases h
  | some p =>
    rw [captureOne_eq_found hf] at h
    by_cases hsel : p.1.selectable
    · rw [if_pos hsel] at h
      have hsp : s = ⟨p.1, p.2⟩ := (Option.some_inj.mp h).symm
      rw [hsp]
      simpa using List.mem_of_find?_eq_some hf
    · rw [if_neg hsel] at h
      cases h

theorem capture_sel_mem_flatten {a : SelectAction} {t : SElem} {s : ElementSelection}
    (h : s ∈ (captureSelection a t).selected) : (s.element, s.index) ∈ flattenElem t := by
  rw [captureSelection_selected_eq] at h
  rcases List.mem_append.mp h with h1 | h2
  · unfold connectedEdges at h1
    obtain ⟨⟨d, n⟩, hmem, heq⟩ := List.mem_filterMap.mp h1
    split at heq
    next src tgt hk =>
      split at heq
      next hcond =>
        have hsp : s = ⟨d, n⟩ := (Option.some_inj.mp heq).symm
        rw [hsp]
        exact hmem
      next => cases heq
    next => cases heq
  · obtain ⟨i, _, hcap⟩ := List.mem_filterMap.mp h2
    exact captureOne_mem_flatten hcap

theorem flatten_entry_decomp (t : SElem) :
    ∀ {d : ElemData} {n : Nat}, (d, n) ∈ flattenElem t →
      ∃ cs ∈ childLists t, ∃ pre c suf,
        cs = pre ++ c :: suf ∧ RTree.data c = d ∧ pre.length = n := by
  induction t using rtree_ind
    (Q := fun l => ∀ (i : Nat) {d : ElemData} {n : Nat}, (d, n) ∈ flattenChildren i l →
      (∃ cs ∈ childListsChildren l, ∃ pre c suf,
        cs = pre ++ c :: suf ∧ RTree.data c = d ∧ pre.length = n) ∨
      (∃ pre c suf, l = pre ++ c :: suf ∧ RTree.data c = d ∧ i + pre.length = n)) with
  | h1 d0 cs hQ =>
    intro d n hmem
    rw [flattenElem] at hmem
    rcases hQ 0 hmem with ⟨l, hl, rest⟩ | ⟨pre, c, suf, heq, hd, hlen⟩
    · exact ⟨l, List.mem_cons_of_mem _ hl, rest⟩
    · exact ⟨cs, List.mem_cons_self _ _, pre, c, suf, heq, hd, by omega⟩
  | h2 =>
    rename_i hmem
    cases hmem
  | h3 c rest hc hrest =>
    rename_i i d n hmem
    rw [flattenChildren] at hmem
    rcases List.mem_cons.mp hmem with hhead | htail
    · right
      have hd : c.data = d := (congrArg Prod.fst hhead).symm
      have hn : i = n := (congrArg Prod.snd hhead).symm
      exact ⟨[], c, rest, rfl, hd, by simpa using hn⟩
    · rcases List.mem_append.mp htail with hin | hlater
      · obtain ⟨cs, hcs, found⟩ := hc hin
        left
        refine ⟨cs, ?_, found⟩
        show cs ∈ childListsChildren (c :: rest)
        rw [childListsChildren]
        exact List.mem_append_left _ hcs
      · rcases hrest (i + 1) hlater with ⟨l, hl, found⟩ | ⟨pre, c0, suf, heq, hd, hlen⟩
        · left
          refine ⟨l, ?_, found⟩
          show l ∈ childListsChildren (c :: rest)
          rw [childListsChildren]
          exact List.mem_append_right _ hl
        · right
          refine ⟨c :: pre, c0, suf, by rw [heq, List.cons_append], hd, ?_⟩
          simp only [List.length_cons]
          omega

theorem childLists_ids_perm (t : SElem) :
    List.Perm ((childLists t).flatMap (fun l => l.map (fun c => c.data.id)))
      ((RTree.allDataList t.children).map ElemData.id) := by
  induction t using rtree_ind
    (Q := fun cs => List.Perm
      ((childListsChildren cs).flatMap (fun l => l.map (fun c => c.data.id))
        ++ cs.map (fun c => c.data.id))
      ((RTree.allDataList cs).map ElemData.id)) with
  | h1 d cs hQ =>
    show List.Perm ((cs :: childListsChildren cs).flatMap (fun l => l.map (fun c => c.data.id)))
      ((RTree.allDataList cs).map ElemData.id)
    rw [List.flatMap_cons]
    exact (List.perm_append_comm).trans hQ
  | h2 => simp [RTree.allDataList, childListsChildren]
  | h3 c cs hc hcs =>
    show List.Perm
      ((childLists c ++ childListsChildren cs).flatMap (fun l => l.map (fun x => x.data.id))
        ++ (c :: cs).map (fun x => x.data.id))
      ((RTree.allData c ++ RTree.allDataList cs).map ElemData.id)
    rw [List.flatMap_append, List.map_cons, List.map_append, allData_eq, List.map_cons,
      List.cons_append]
    refine List.perm_middle.trans (List.Perm.cons _ ?_)
    rw [List.append_assoc]
    exact List.Perm.append hc hcs

theorem capture_IdxFits {a : SelectAction} {t : SElem} (hwf : WellFormed t) :
    ∀ s ∈ (captureSelection a t).selected, ∀ cs ∈ childLists t, IdxFits s cs := by
  intro s hs cs hcs c hfind
  have hmem := capture_sel_mem_flatten hs
  obtain ⟨csA, hcsA, pre, cA, suf, hdecomp, hdataA, hlenA⟩ := flatten_entry_decomp t hmem
  have hocc : ((childLists t).flatMap (fun l => l.map (fun c => c.data.id))).Nodup :=
    ((childLists_ids_perm t).nodup_iff).mpr (wellFormed_tail hwf)
  obtain ⟨hblocks, hdisj⟩ := List.nodup_flatMap.mp hocc
  have hcid : c.data.id = s.element.id := by
    simpa using List.find?_some (p := fun x : SElem => decide (x.data.id = s.element.id)) hfind
  have hcAid : cA.data.id = s.element.id := by rw [hdataA]
  have hcmem : c ∈ cs := List.mem_of_find?_eq_some hfind
  have hcAmem : cA ∈ csA := by
    rw [hdecomp]
    exact List.mem_append_right _ (List.mem_cons_self _ _)
  have hcseq : cs = csA := by
    by_contra hne
    have hdisj2 := List.Pairwise.forall
      (fun x y hxy => List.Disjoint.symm hxy) hdisj hcs hcsA hne
    exact hdisj2 (List.mem_map_of_mem _ hcmem)
      (by rw [hcid, ← hcAid]; exact List.mem_map_of_mem _ hcAmem)
  rw [← hcseq] at hdecomp hcAmem
  have hndcs : (cs.map (fun c => c.data.id)).Nodup := hblocks cs hcs
  have hceq : c = cA :=
    List.inj_on_of_nodup_map hndcs hcmem hcAmem (hcid.trans hcAid.symm)
  have hnopre : ∀ x ∈ pre, ¬x.data.id = s.element.id := by
    intro x hx hxid
    have hform : cs.map (fun c => c.data.id)
        = pre.map (fun c => c.data.id) ++ cA.data.id :: suf.map (fun c => c.data.id) := by
      rw [hdecomp]
      simp
    rw [hform] at hndcs
    have hdisjps := (List.nodup_append.mp hndcs).2.2
    exact hdisjps (a := cA.data.id)
      (by rw [hcAid, ← hxid]; exact List.mem_map_of_mem _ hx)
      (List.mem_cons_self _ _)
  rw [hceq]
  exact ⟨pre, suf, hdecomp, hnopre, hlenA⟩

/-- Counterexample to C1 as stated: undo does not always restore the root.
With children `[a, b, c]` and `SelectAction(["a","b"], [])` (captured in
increasing sibling order) the round trip ends with child order `[a, c, b]`;
and with an already-selected element `x`, execute-then-undo clears its
`selected` flag instead of restoring `true`. -/
theorem selectCommand_roundtrip_counterexample :
    (flattenElem (SelectCommand.undo (SelectCommand.execute ⟨["a", "b"], []⟩ abcRoot).1
        (SelectCommand.execute ⟨["a", "b"], []⟩ abcRoot).2).2 ≠ flattenElem abcRoot) ∧
    (flattenElem (SelectCommand.undo (SelectCommand.execute ⟨["x"], []⟩ mixedRoot).1
        (SelectCommand.execute ⟨["x"], []⟩ mixedRoot).2).2 ≠ flattenElem mixedRoot) := by
  refine ⟨?_, ?_⟩ <;> decide

/-- **C1 (amended)**: for a well-formed root, `undo` after `execute` restores
the root exactly, provided (a) within each parent the captured selected
entries occur in strictly decreasing sibling-index order (undo moves highest
indices back last), (b) every element captured as selected was unselected
before `execute`, and (c) every element captured as deselected was selected
before `execute`.  The counterexample shows each proviso is necessary. -/
theorem selectCommand_undo_roundtrip (a : SelectAction) (t : SElem)
    (hwf : WellFormed t)
    (hord : ∀ cs ∈ childLists t,
      (((captureSelection a t).selected.filter
        (fun s => cs.any (fun c => c.data.id = s.element.id))).Pairwise
        (fun s1 s2 => s2.index < s1.index)))
    (hselflag : ∀ s ∈ (captureSelection a t).selected, ∀ d ∈ RTree.allData t,
      s.element.id = d.id → d.selected = false)
    (hdesflag : ∀ s ∈ (captureSelection a t).deselected, ∀ d ∈ RTree.allData t,
      s.element.id = d.id → d.selected = true) :
    (SelectCommand.undo (SelectCommand.execute a t).1
      (SelectCommand.execute a t).2).2 = t := by
  show applyOps (undoOps (captureSelection a t))
    (applyOps (redoOps (captureSelection a t)) t) = t
  rw [← applyOps_append]
  exact applyOps_c1 (captureSelection a t) t hwf (capture_IdxFits hwf) hord hselflag hdesflag

/-- Witness for the amended C1: selecting `b` then `a` (decreasing captured
indices) on the all-unselected root `[a, b, c]` round-trips exactly. -/
theorem selectCommand_undo_roundtrip_witness :
    WellFormed abcRoot ∧
    (SelectCommand.undo (SelectCommand.execute ⟨["b", "a"], []⟩ abcRoot).1
      (SelectCommand.execute ⟨["b", "a"], []⟩ abcRoot).2).2 = abcRoot :=
  ⟨by unfold WellFormed; decide,
    selectCommand_undo_roundtrip ⟨["b", "a"], []⟩ abcRoot (by unfold WellFormed; decide)
      (by decide) (by decide) (by decide)⟩

theorem mapDataList_eq_map {α : Type} (f : α → α) (cs : List (RTree α)) :
    RTree.mapDataList f cs = cs.map (RTree.mapData f) := by
  induction cs with
  | nil => rfl
  | cons c rest ih => rw [RTree.mapDataList, List.map_cons, ih]

theorem mapData_data {α : Type} (f : α → α) (t : RTree α) :
    (RTree.mapData f t).data = f t.data := by
  cases t
  rfl

theorem selectAllElem_tree (v : Bool) (t : SElem) :
    ∀ st : List (String × Bool), (selectAllElem v st t).2 = RTree.mapData (selFlagMap v) t := by
  induction t using rtree_ind
    (Q := fun cs => ∀ st : List (String × Bool),
      (selectAllChildren v st cs).2 = RTree.mapDataList (selFlagMap v) cs) with
  | h1 d cs hQ =>
    intro st
    rw [selectAllElem, RTree.mapData]
    simp only
    rw [hQ]
    congr 1
  | h2 => rfl
  | h3 c cs hc hcs =>
    rename_i st
    rw [selectAllChildren, RTree.mapDataList]
    simp only
    rw [hc, hcs]

theorem dictInsert_fresh {k : String} {v : Bool} {d : List (String × Bool)}
    (h : ∀ p ∈ d, ¬p.1 = k) : dictInsert k v d = d ++ [(k, v)] := by
  unfold dictInsert
  rw [if_neg]
  intro hany
  obtain ⟨p, hp, hpk⟩ := List.any_eq_true.mp hany
  exact h p hp (by simpa using hpk)

theorem entriesOf_keys_mem {t : SElem} {k : String} {b : Bool}
    (h : (k, b) ∈ entriesOf t) : k ∈ (RTree.allData t).map ElemData.id := by
  obtain ⟨d, hd, heq⟩ := List.mem_filterMap.mp h
  by_cases hsel : d.selectable
  · rw [if_pos hsel] at heq
    have : k = d.id := congrArg Prod.fst (Option.some_inj.mp heq).symm
    rw [this]
    exact List.mem_map_of_mem _ hd
  · rw [if_neg hsel] at heq
    cases heq

theorem entriesOf_mk (d : ElemData) (cs : List SElem) :
    entriesOf (.mk d cs)
      = (if d.selectable then [(d.id, d.selected)] else [])
        ++ (RTree.allDataList cs).filterMap
          (fun d => if d.selectable then some (d.id, d.selected) else none) := by
  unfold entriesOf
  rw [RTree.allData, List.filterMap_cons]
  by_cases hsel : d.selectable
  · rw [if_pos hsel, if_pos hsel]
    rfl
  · rw [if_neg hsel, if_neg hsel]
    rfl

theorem selectAllElem_state (v : Bool) (t : SElem) :
    ∀ st : List (String × Bool),
      ((RTree.allData t).map ElemData.id).Nodup →
      (∀ p ∈ st, ¬p.1 ∈ (RTree.allData t).map ElemData.id) →
      (selectAllElem v st t).1 = st ++ entriesOf t := by
  induction t using rtree_ind
    (Q := fun cs => ∀ st : List (String × Bool),
      ((RTree.allDataList cs).map ElemData.id).Nodup →
      (∀ p ∈ st, ¬p.1 ∈ (RTree.allDataList cs).map ElemData.id) →
      (selectAllChildren v st cs).1 = st ++ (RTree.allDataList cs).filterMap
        (fun d => if d.selectable then some (d.id, d.selected) else none)) with
  | h1 d cs hQ =>
    intro st hnd hdisj
    have hnd2 : ((RTree.allDataList cs).map ElemData.id).Nodup := wellFormed_parts hnd
    have hdid : ¬d.id ∈ (RTree.allDataList cs).map ElemData.id := by
      rw [RTree.allData, List.map_cons, List.nodup_cons] at hnd
      exact hnd.1
    rw [selectAllElem]
    simp only
    by_cases hsel : d.selectable
    · rw [if_pos hsel]
      rw [hQ (dictInsert d.id d.selected st) hnd2 ?_]
      · rw [dictInsert_fresh, entriesOf_mk, if_pos hsel]
        · simp
        · intro p hp hpk
          exact hdisj p hp (by rw [hpk, RTree.allData, List.map_cons]; exact List.mem_cons_self _ _)
      · intro p hp
        rw [dictInsert_fresh (fun q hq hqk => hdisj q hq
          (by rw [hqk, RTree.allData, List.map_cons]; exact List.mem_cons_self _ _))] at hp
        rcases List.mem_append.mp hp with hp1 | hp2
        · intro hmem
          exact hdisj p hp1 (by rw [RTree.allData, List.map_cons]; exact List.mem_cons_of_mem _ hmem)
        · rw [List.mem_singleton.mp hp2]
          exact hdid
    · rw [if_neg hsel]
      rw [hQ st hnd2 ?_]
      · rw [entriesOf_mk, if_neg hsel, List.nil_append]
      · intro p hp hmem
        exact hdisj p hp (by rw [RTree.allData, List.map_cons]; exact List.mem_cons_of_mem _ hmem)
  | h2 =>
    rename_i st hx1 hx2
    simp [selectAllChildren, RTree.allDataList]
  | h3 c cs hc hcs =>
    rename_i st hnd hdisj
    have hsplit : RTree.allDataList (c :: cs) = RTree.allData c ++ RTree.allDataList cs := rfl
    rw [hsplit, List.map_append, List.nodup_append] at hnd
    rw [selectAllChildren]
    simp only
    rw [hc st hnd.1 (fun p hp hmem => hdisj p hp
      (by rw [hsplit, List.map_append]; exact List.mem_append_left _ hmem))]
    rw [hcs (st ++ entriesOf c) hnd.2.1 ?_]
    · rw [hsplit, List.filterMap_append, List.append_assoc]
      rfl
    · intro p hp hmem
      rcases List.mem_append.mp hp with hp1 | hp2
      · exact hdisj p hp1 (by rw [hsplit, List.map_append]; exact List.mem_append_right _ hmem)
      · rcases p with ⟨k, b⟩
        exact hnd.2.2 (entriesOf_keys_mem hp2) hmem

theorem mapData_comp {α : Type} (f g : α → α) (t : RTree α) :
    RTree.mapData f (RTree.mapData g t) = RTree.mapData (fun d => f (g d)) t := by
  induction t using rtree_ind
    (Q := fun cs => RTree.mapDataList f (RTree.mapDataList g cs)
      = RTree.mapDataList (fun d => f (g d)) cs) with
  | h1 d cs hQ =>
    rw [RTree.mapData, RTree.mapData, RTree.mapData, hQ]
  | h2 => rfl
  | h3 c cs hc hcs =>
    simp only [RTree.mapDataList]
    rw [hc, hcs]

theorem applyPrim_setSel_eq_mapData (i : String) (b : Bool) (t : SElem) :
    applyPrim (.setSel i b) t = RTree.mapData (applyPrimData (.setSel i b)) t := by
  induction t using rtree_ind
    (Q := fun cs => applyPrimChildren (.setSel i b) cs
      = RTree.mapDataList (applyPrimData (.setSel i b)) cs) with
  | h1 d cs hQ =>
    rw [applyPrim, RTree.mapData, hQ]
    rfl
  | h2 => rfl
  | h3 c cs hc hcs =>
    simp only [applyPrimChildren, RTree.mapDataList]
    rw [hc, hcs]

theorem getById_mapData (g : ElemData → ElemData) (hg : ∀ d, (g d).id = d.id)
    (k : String) (t : SElem) :
    RTree.getById ElemData.id k (RTree.mapData g t)
      = (RTree.getById ElemData.id k t).map (RTree.mapData g) := by
  induction t using rtree_ind
    (Q := fun cs => RTree.getByIdList ElemData.id k (RTree.mapDataList g cs)
      = (RTree.getByIdList ElemData.id k cs).map (RTree.mapData g)) with
  | h1 d cs hQ =>
    rw [RTree.mapData, RTree.getById, RTree.getById]
    show (if (g d).id = k then _ else _) = _
    rw [hg]
    by_cases h : d.id = k
    · rw [if_pos h, if_pos h]
      rfl
    · rw [if_neg h, if_neg h]
      exact hQ
  | h2 => rfl
  | h3 c cs hc hcs =>
    simp only [RTree.mapDataList, RTree.getByIdList]
    rw [hc]
    cases h : RTree.getById ElemData.id k c with
    | some e => simp
    | none => simp [hcs]

theorem getById_mem_allData (k : String) (t : SElem) :
    ∀ e, RTree.getById ElemData.id k t = some e →
      e.data ∈ RTree.allData t ∧ e.data.id = k := by
  induction t using rtree_ind
    (Q := fun cs => ∀ e, RTree.getByIdList ElemData.id k cs = some e →
      e.data ∈ RTree.allDataList cs ∧ e.data.id = k) with
  | h1 d cs hQ =>
    intro e he
    rw [RTree.getById] at he
    by_cases h : d.id = k
    · rw [if_pos h] at he
      obtain rfl := Option.some_inj.mp he
      refine ⟨?_, h⟩
      show d ∈ d :: RTree.allDataList cs
      exact List.mem_cons_self _ _
    · rw [if_neg h] at he
      obtain ⟨hmem, hid⟩ := hQ e he
      refine ⟨?_, hid⟩
      rw [RTree.allData]
      exact List.mem_cons_of_mem _ hmem
  | h2 =>
    rename_i e he
    simp [RTree.getByIdList] at he
  | h3 c cs hc hcs =>
    rename_i e he
    rw [RTree.getByIdList] at he
    split at he
    · rename_i e2 heq
      obtain rfl := Option.some_inj.mp he
      obtain ⟨hm, hid⟩ := hc e2 heq
      refine ⟨?_, hid⟩
      rw [RTree.allDataList]
      exact List.mem_append_left _ hm
    · obtain ⟨hm, hid⟩ := hcs e he
      refine ⟨?_, hid⟩
      rw [RTree.allDataList]
      exact List.mem_append_right _ hm

theorem getById_of_mem (k : String) (t : SElem) :
    k ∈ (RTree.allData t).map ElemData.id →
      ∃ e, RTree.getById ElemData.id k t = some e := by
  induction t using rtree_ind
    (Q := fun cs => k ∈ (RTree.allDataList cs).map ElemData.id →
      ∃ e, RTree.getByIdList ElemData.id k cs = some e) with
  | h1 d cs hQ =>
    intro hk
    rw [RTree.getById]
    by_cases h : d.id = k
    · exact ⟨_, by rw [if_pos h]⟩
    · rw [if_neg h]
      apply hQ
      rw [RTree.allData, List.map_cons] at hk
      rcases List.mem_cons.mp hk with h1 | h2
      · exact absurd h1.symm h
      · exact h2
  | h2 =>
    rename_i hk
    simp [RTree.allDataList] at hk
  | h3 c cs hc hcs =>
    rename_i hk
    rw [RTree.allDataList, List.map_append] at hk
    rw [RTree.getByIdList]
    rcases List.mem_append.mp hk with h1 | h2
    · obtain ⟨e, he⟩ := hc h1
      exact ⟨e, by rw [he]⟩
    · cases h : RTree.getById ElemData.id k c with
      | some e => exact ⟨e, rfl⟩
      | none =>
        obtain ⟨e, he⟩ := hcs h2
        exact ⟨e, he⟩

theorem lastSet_pairs_none {i : String} {l : List (String × Bool)}
    (h : ∀ p ∈ l, ¬p.1 = i) :
    lastSet i (l.map fun p => PrimOp.setSel p.1 p.2) = none := by
  induction l with
  | nil => rfl
  | cons p l ih =>
    rw [List.map_cons, lastSet_cons_setSel,
      ih (fun q hq => h q (List.mem_cons_of_mem _ hq)),
      if_neg (h p (List.mem_cons_self _ _))]
    rfl

theorem lastSet_pairs_mem {i : String} {b : Bool} {l : List (String × Bool)}
    (hnd : (l.map Prod.fst).Nodup) (hm : (i, b) ∈ l) :
    lastSet i (l.map fun p => PrimOp.setSel p.1 p.2) = some b := by
  induction l with
  | nil => cases hm
  | cons p l ih =>
    rw [List.map_cons, List.nodup_cons] at hnd
    rw [List.map_cons, lastSet_cons_setSel]
    rcases List.mem_cons.mp hm with heq | hm2
    · obtain rfl := heq.symm
      rw [lastSet_pairs_none
        (fun q hq hqi => hnd.1 (by have hqm := List.mem_map_of_mem Prod.fst hq; rw [hqi] at hqm; exact hqm)),
        if_pos rfl]
      rfl
    · rw [ih hnd.2 hm2]
      rfl

theorem entry_keys_sublist (l : List ElemData) :
    List.Sublist
      ((l.filterMap fun d =>
        if d.selectable then some (d.id, d.selected) else none).map Prod.fst)
      (l.map ElemData.id) := by
  induction l with
  | nil => simp
  | cons d l ih =>
    rw [List.map_cons]
    by_cases h : d.selectable
    · simp only [List.filterMap_cons, h, if_true, List.map_cons]
      exact List.Sublist.cons₂ _ ih
    · simp only [List.filterMap_cons, h, if_false, Bool.false_eq_true]
      exact ih.cons _

theorem entriesOf_keys_nodup {t : SElem} (hwf : WellFormed t) :
    ((entriesOf t).map Prod.fst).Nodup := by
  unfold WellFormed at hwf
  exact hwf.sublist (entry_keys_sublist (RTree.allData t))

theorem mem_entriesOf {t : SElem} {d : ElemData} (hd : d ∈ RTree.allData t)
    (hsel : d.selectable = true) : (d.id, d.selected) ∈ entriesOf t :=
  List.mem_filterMap.mpr ⟨d, hd, by rw [if_pos hsel]⟩

theorem not_key_entriesOf {t : SElem} (hwf : WellFormed t) {d : ElemData}
    (hd : d ∈ RTree.allData t) (hsel : d.selectable = false) :
    ∀ p ∈ entriesOf t, ¬p.1 = d.id := by
  intro p hp hpk
  obtain ⟨d2, hd2, heq⟩ := List.mem_filterMap.mp hp
  by_cases h2 : d2.selectable
  · rw [if_pos h2] at heq
    obtain rfl := Option.some_inj.mp heq
    have hinj := List.inj_on_of_nodup_map (show ((RTree.allData t).map ElemData.id).Nodup from hwf)
    have hdd : d2 = d := hinj hd2 hd hpk
    rw [hdd, hsel] at h2
    exact Bool.false_ne_true h2
  · rw [if_neg h2] at heq
    cases heq

theorem selFlagMap_id (v : Bool) (d : ElemData) : (selFlagMap v d).id = d.id := by
  unfold selFlagMap
  split <;> rfl

theorem selFlagMap_selectable (v : Bool) (d : ElemData) :
    (selFlagMap v d).selectable = d.selectable := by
  unfold selFlagMap
  split <;> rfl

theorem selectAll_undo_cons (p : String × Bool) (st : List (String × Bool)) (t : SElem) :
    SelectAllCommand.undo (p :: st) t
      = SelectAllCommand.undo st
          (match RTree.getById ElemData.id p.1 t with
           | some e => if e.data.selectable then applyPrim (.setSel p.1 p.2) t else t
           | none => t) := rfl

theorem selectAll_undo_fold (st : List (String × Bool)) (g : ElemData → ElemData)
    (hgid : ∀ d, (g d).id = d.id) (hgsel : ∀ d, (g d).selectable = d.selectable)
    (t0 : SElem)
    (hres : ∀ p ∈ st, ∃ e, RTree.getById ElemData.id p.1 t0 = some e ∧
      e.data.selectable = true) :
    SelectAllCommand.undo st (RTree.mapData g t0)
      = applyOps (st.map fun p => PrimOp.setSel p.1 p.2) (RTree.mapData g t0) := by
  induction st generalizing g with
  | nil => rfl
  | cons p st ih =>
    obtain ⟨e, he, hesel⟩ := hres p (List.mem_cons_self _ _)
    have hget : RTree.getById ElemData.id p.1 (RTree.mapData g t0)
        = some (RTree.mapData g e) := by
      rw [getById_mapData g hgid, he]
      rfl
    have hselg : (RTree.mapData g e).data.selectable = true := by
      rw [mapData_data, hgsel, hesel]
    rw [selectAll_undo_cons, hget]
    simp only [hselg, if_true]
    rw [List.map_cons, applyOps_cons]
    rw [applyPrim_setSel_eq_mapData, mapData_comp]
    exact ih (fun d => applyPrimData (.setSel p.1 p.2) (g d))
      (fun d => by rw [applyPrimData_id, hgid])
      (fun d => by rw [applyPrimData_selectable, hgsel])
      (fun q hq => hres q (List.mem_cons_of_mem _ hq))

theorem applyOps_setSels_mapData (ps : List PrimOp)
    (hS : ∀ q ∈ ps, ∃ j b, q = PrimOp.setSel j b) (v : Bool) (t : SElem) :
    (∀ d ∈ RTree.allData t,
      lastSet d.id ps = if d.selectable then some d.selected else none) →
    applyOps ps (RTree.mapData (selFlagMap v) t) = t := by
  induction t using rtree_ind
    (Q := fun cs => (∀ d ∈ RTree.allDataList cs,
      lastSet d.id ps = if d.selectable then some d.selected else none) →
      (RTree.mapDataList (selFlagMap v) cs).map (applyOps ps) = cs) with
  | h1 d cs hQ =>
    intro hall
    rw [RTree.mapData, applyOps_mk, listFold_setSel_eq hS,
      hQ (fun d2 hd2 => hall d2
        (by rw [RTree.allData]; exact List.mem_cons_of_mem _ hd2))]
    have hd := hall d (by rw [RTree.allData]; exact List.mem_cons_self _ _)
    congr 1
    rw [dataFold_eq, selFlagMap_id]
    by_cases hsel : d.selectable
    · rw [if_pos hsel] at hd
      rw [hd]
      apply ElemData.eq_of_fields
      · rfl
      · unfold selFlagMap
        split <;> rfl
      · exact selFlagMap_selectable v d
      · rfl
    · rw [if_neg hsel] at hd
      rw [hd]
      have hfix : selFlagMap v d = d := by
        unfold selFlagMap
        rw [if_neg hsel]
      rw [hfix]
      apply ElemData.eq_of_fields <;> rfl
  | h2 =>
    rename_i hall
    rfl
  | h3 c cs hc hcs =>
    rename_i hall
    rw [RTree.mapDataList, List.map_cons,
      hc (fun d2 hd2 => hall d2
        (by rw [RTree.allDataList]; exact List.mem_append_left _ hd2)),
      hcs (fun d2 hd2 => hall d2
        (by rw [RTree.allDataList]; exact List.mem_append_right _ hd2))]

theorem selectAll_state_entries (a : SelectAllAction) (t : SElem) (hwf : WellFormed t) :
    (SelectAllCommand.execute a t).1 = entriesOf t := by
  show (selectAllElem a.select [] t).1 = entriesOf t
  rw [selectAllElem_state a.select t []
    (show ((RTree.allData t).map ElemData.id).Nodup from hwf)
    (by intro p hp; simp at hp)]
  rfl

theorem selectAll_restore (a : SelectAllAction) (t : SElem) (hwf : WellFormed t) :
    SelectAllCommand.undo (SelectAllCommand.execute a t).1
      (SelectAllCommand.execute a t).2 = t := by
  have htree : (SelectAllCommand.execute a t).2
      = RTree.mapData (selFlagMap a.select) t := selectAllElem_tree a.select t []
  rw [selectAll_state_entries a t hwf, htree]
  rw [selectAll_undo_fold (entriesOf t) (selFlagMap a.select)
    (selFlagMap_id a.select) (selFlagMap_selectable a.select) t ?hres]
  case hres =>
    intro p hp
    obtain ⟨e, he⟩ := getById_of_mem p.1 t (entriesOf_keys_mem hp)
    refine ⟨e, he, ?_⟩
    obtain ⟨hm, hid⟩ := getById_mem_allData p.1 t e he
    obtain ⟨d2, hd2, heq⟩ := List.mem_filterMap.mp hp
    by_cases h2 : d2.selectable
    · rw [if_pos h2] at heq
      have hpk : p.1 = d2.id := by
        rw [← Option.some_inj.mp heq]
      have hinj := List.inj_on_of_nodup_map
        (show ((RTree.allData t).map ElemData.id).Nodup from hwf)
      have : e.data = d2 := hinj hm hd2 (by rw [hid, hpk])
      rw [this]
      exact h2
    · rw [if_neg h2] at heq
      cases heq
  apply applyOps_setSels_mapData
  · intro q hq
    obtain ⟨p2, _, hq2⟩ := List.mem_map.mp hq
    exact ⟨p2.1, p2.2, hq2.symm⟩
  · intro d hd
    by_cases hsel : d.selectable
    · rw [if_pos hsel]
      exact lastSet_pairs_mem (entriesOf_keys_nodup hwf) (mem_entriesOf hd hsel)
    · rw [if_neg hsel]
      exact lastSet_pairs_none (not_key_entriesOf hwf hd (by
        cases hx : d.selectable
        · rfl
        · exact absurd hx hsel))

/-- **C4 (counterexample)**: the spec says the pre-existing `selected` flags
are recorded only on the first `execute` and that `redo` does not overwrite
the recorded flags.  This is false: `redo` calls `selectAll` again, which
re-records the *current* flags into `previousSelection`, overwriting the
original ones.  On `mixedRoot` (where `x` starts selected and `y` starts
unselected), `execute` of `SelectAllAction(true)` records `y ↦ false`, but a
subsequent `redo` overwrites the record to `y ↦ true`; an `undo` performed
after that `redo` then leaves `y` selected, so the model does not return to
its pre-`execute` state. -/
theorem selectAll_redo_overwrites_counterexample :
    ((SelectAllCommand.redo ⟨true⟩ (SelectAllCommand.execute ⟨true⟩ mixedRoot).1
        (SelectAllCommand.execute ⟨true⟩ mixedRoot).2).1
      ≠ (SelectAllCommand.execute ⟨true⟩ mixedRoot).1) ∧
    (flattenElem (SelectAllCommand.undo
        (SelectAllCommand.redo ⟨true⟩ (SelectAllCommand.execute ⟨true⟩ mixedRoot).1
          (SelectAllCommand.execute ⟨true⟩ mixedRoot).2).1
        (SelectAllCommand.redo ⟨true⟩ (SelectAllCommand.execute ⟨true⟩ mixedRoot).1
          (SelectAllCommand.execute ⟨true⟩ mixedRoot).2).2)
      ≠ flattenElem mixedRoot) := by
  refine ⟨?_, ?_⟩ <;> decide

/-- **C4 (amended)**: on a well-formed root, `execute` of a `SelectAllAction`
records every selectable element's pre-existing `selected` flag, and `undo`
performed directly after `execute` restores every flag verbatim — the model
returns exactly to its pre-`execute` state, including elements that were
already selected.  (The original claim's assertion that `redo` does not
overwrite the recorded flags is refuted by the counterexample.) -/
theorem selectAll_execute_undo_restores (a : SelectAllAction) (t : SElem)
    (hwf : WellFormed t) :
    SelectAllCommand.undo (SelectAllCommand.execute a t).1
      (SelectAllCommand.execute a t).2 = t :=
  selectAll_restore a t hwf

/-- Witness for the amended C4: select-all on `mixedRoot` followed by `undo`
restores the root exactly. -/
theorem selectAll_execute_undo_restores_witness :
    WellFormed mixedRoot ∧
    SelectAllCommand.undo (SelectAllCommand.execute ⟨true⟩ mixedRoot).1
      (SelectAllCommand.execute ⟨true⟩ mixedRoot).2 = mixedRoot :=
  ⟨by unfold WellFormed; decide,
   selectAll_execute_undo_restores ⟨true⟩ mixedRoot (by unfold WellFormed; decide)⟩

theorem mapData_id {α : Type} (t : RTree α) : RTree.mapData (fun d => d) t = t := by
  induction t using rtree_ind
    (Q := fun cs => RTree.mapDataList (fun d : α => d) cs = cs) with
  | h1 d cs hQ => rw [RTree.mapData, hQ]
  | h2 => rfl
  | h3 c cs hc hcs =>
    rw [RTree.mapDataList, hc, hcs]

theorem getById_mapData_gen {α : Type} (idf : α → String) (g : α → α)
    (hg : ∀ d, idf (g d) = idf d) (k : String) (t : RTree α) :
    RTree.getById idf k (RTree.mapData g t)
      = (RTree.getById idf k t).map (RTree.mapData g) := by
  induction t using rtree_ind
    (Q := fun cs => RTree.getByIdList idf k (RTree.mapDataList g cs)
      = (RTree.getByIdList idf k cs).map (RTree.mapData g)) with
  | h1 d cs hQ =>
    rw [RTree.mapData, RTree.getById, RTree.getById, hg]
    by_cases h : idf d = k
    · rw [if_pos h, if_pos h]
      rfl
    · rw [if_neg h, if_neg h]
      exact hQ
  | h2 => rfl
  | h3 c cs hc hcs =>
    simp only [RTree.mapDataList, RTree.getByIdList]
    rw [hc]
    cases h : RTree.getById idf k c with
    | some e => simp
    | none => simp [hcs]

theorem getById_id_gen {α : Type} (idf : α → String) (k : String) (t : RTree α) :
    ∀ e, RTree.getById idf k t = some e → idf e.data = k := by
  induction t using rtree_ind
    (Q := fun cs => ∀ e, RTree.getByIdList idf k cs = some e → idf e.data = k) with
  | h1 d cs hQ =>
    intro e he
    rw [RTree.getById] at he
    by_cases h : idf d = k
    · rw [if_pos h] at he
      obtain rfl := Option.some_inj.mp he
      exact h
    · rw [if_neg h] at he
      exact hQ e he
  | h2 =>
    rename_i e he
    simp [RTree.getByIdList] at he
  | h3 c cs hc hcs =>
    rename_i e he
    rw [RTree.getByIdList] at he
    split at he
    · rename_i e2 heq
      obtain rfl := Option.some_inj.mp he
      exact hc e2 heq
    · exact hcs e he

theorem foldl_guard_mapData {α β : Type} (c : β → Bool) (g : β → α → α)
    (l : List β) (t : RTree α) :
    l.foldl (fun r b => if c b then RTree.mapData (g b) r else r) t
      = RTree.mapData (fun d => l.foldl (fun d b => if c b then g b d else d) d) t := by
  induction l generalizing t with
  | nil => exact (mapData_id t).symm
  | cons b l ih =>
    rw [List.foldl_cons]
    by_cases h : c b
    · rw [if_pos h, ih, mapData_comp]
      congr 1
      funext d
      rw [List.foldl_cons, if_pos h]
    · rw [if_neg h, ih]
      congr 1
      funext d
      rw [List.foldl_cons, if_neg h]

theorem boundsStep_id (r0 : SchemaElem) (b : ElementAndBounds) (d : SchemaData) :
    (boundsStep r0 b d).id = d.id := by
  unfold boundsStep
  split
  · split <;> rfl
  · rfl

theorem boundsStep_type (r0 : SchemaElem) (b : ElementAndBounds) (d : SchemaData) :
    (boundsStep r0 b d).type = d.type := by
  unfold boundsStep
  split
  · split <;> rfl
  · rfl

theorem boundsStep_alignment (r0 : SchemaElem) (b : ElementAndBounds) (d : SchemaData) :
    (boundsStep r0 b d).alignment = d.alignment := by
  unfold boundsStep
  split
  · split <;> rfl
  · rfl

theorem alignStep_id (r0 : SchemaElem) (al : ElementAndAlignment) (d : SchemaData) :
    (alignStep r0 al d).id = d.id := by
  unfold alignStep
  split
  · split <;> rfl
  · rfl

theorem alignStep_type (r0 : SchemaElem) (al : ElementAndAlignment) (d : SchemaData) :
    (alignStep r0 al d).type = d.type := by
  unfold alignStep
  split
  · split <;> rfl
  · rfl

theorem alignStep_position (r0 : SchemaElem) (al : ElementAndAlignment) (d : SchemaData) :
    (alignStep r0 al d).position = d.position := by
  unfold alignStep
  split
  · split <;> rfl
  · rfl

theorem alignStep_size (r0 : SchemaElem) (al : ElementAndAlignment) (d : SchemaData) :
    (alignStep r0 al d).size = d.size := by
  unfold alignStep
  split
  · split <;> rfl
  · rfl

theorem boundsStep_skip (r0 : SchemaElem) (b : ElementAndBounds) (d : SchemaData)
    (hne : ¬d.id = b.elementId) : boundsStep r0 b d = d := by
  unfold boundsStep
  split <;> simp [hne]

theorem alignStep_skip (r0 : SchemaElem) (al : ElementAndAlignment) (d : SchemaData)
    (hne : ¬d.id = al.elementId) : alignStep r0 al d = d := by
  unfold alignStep
  split <;> simp [hne]

theorem foldl_boundsStep_skip (r0 : SchemaElem) (l : List ElementAndBounds) (d : SchemaData)
    (h : ∀ b ∈ l, ¬d.id = b.elementId) :
    l.foldl (fun d b => boundsStep r0 b d) d = d := by
  induction l with
  | nil => rfl
  | cons b l ih =>
    rw [List.foldl_cons, boundsStep_skip r0 b d (h b (List.mem_cons_self _ _))]
    exact ih (fun b2 hb2 => h b2 (List.mem_cons_of_mem _ hb2))

theorem foldl_alignStep_skip (r0 : SchemaElem) (l : List ElementAndAlignment) (d : SchemaData)
    (h : ∀ al ∈ l, ¬d.id = al.elementId) :
    l.foldl (fun d al => alignStep r0 al d) d = d := by
  induction l with
  | nil => rfl
  | cons al l ih =>
    rw [List.foldl_cons, alignStep_skip r0 al d (h al (List.mem_cons_self _ _))]
    exact ih (fun a2 ha2 => h a2 (List.mem_cons_of_mem _ ha2))

theorem foldl_boundsStep_fields (r0 : SchemaElem) (l : List ElementAndBounds) :
    ∀ d : SchemaData,
      ((l.foldl (fun d b => boundsStep r0 b d) d).id = d.id) ∧
      ((l.foldl (fun d b => boundsStep r0 b d) d).type = d.type) ∧
      ((l.foldl (fun d b => boundsStep r0 b d) d).alignment = d.alignment) := by
  induction l with
  | nil => exact fun d => ⟨rfl, rfl, rfl⟩
  | cons b l ih =>
    intro d
    rw [List.foldl_cons]
    obtain ⟨h1, h2, h3⟩ := ih (boundsStep r0 b d)
    exact ⟨h1.trans (boundsStep_id r0 b d), h2.trans (boundsStep_type r0 b d),
      h3.trans (boundsStep_alignment r0 b d)⟩

theorem foldl_alignStep_fields (r0 : SchemaElem) (l : List ElementAndAlignment) :
    ∀ d : SchemaData,
      ((l.foldl (fun d al => alignStep r0 al d) d).id = d.id) ∧
      ((l.foldl (fun d al => alignStep r0 al d) d).type = d.type) ∧
      ((l.foldl (fun d al => alignStep r0 al d) d).position = d.position) ∧
      ((l.foldl (fun d al => alignStep r0 al d) d).size = d.size) := by
  induction l with
  | nil => exact fun d => ⟨rfl, rfl, rfl, rfl⟩
  | cons al l ih =>
    intro d
    rw [List.foldl_cons]
    obtain ⟨h1, h2, h3, h4⟩ := ih (alignStep r0 al d)
    exact ⟨h1.trans (alignStep_id r0 al d), h2.trans (alignStep_type r0 al d),
      h3.trans (alignStep_position r0 al d), h4.trans (alignStep_size r0 al d)⟩

theorem foldl_boundsStep_apply (r0 : SchemaElem) {l : List ElementAndBounds}
    {b : ElementAndBounds} (hmem : b ∈ l)
    (hnd : (l.map ElementAndBounds.elementId).Nodup)
    (hsome : (schemaGetById b.elementId r0).isSome = true)
    (d : SchemaData) (hid : d.id = b.elementId) :
    l.foldl (fun d b => boundsStep r0 b d) d
      = { d with position := some ⟨b.newBounds.x, b.newBounds.y⟩,
                 size := some ⟨b.newBounds.width, b.newBounds.height⟩ } := by
  obtain ⟨l1, l2, rfl⟩ := List.append_of_mem hmem
  rw [List.map_append, List.map_cons, List.nodup_append] at hnd
  rw [List.foldl_append, List.foldl_cons]
  rw [foldl_boundsStep_skip r0 l1 d
    (fun b2 hb2 hbe => hnd.2.2 (List.mem_map_of_mem _ hb2)
      (by rw [← hbe, hid]; exact List.mem_cons_self _ _))]
  have hstep : boundsStep r0 b d
      = { d with position := some ⟨b.newBounds.x, b.newBounds.y⟩,
                 size := some ⟨b.newBounds.width, b.newBounds.height⟩ } := by
    unfold boundsStep
    rw [if_pos hsome, if_pos hid]
  rw [hstep]
  exact foldl_boundsStep_skip r0 l2 _
    (fun b2 hb2 hbe => (List.nodup_cons.mp hnd.2.1).1
      (by
        have hbb : b.elementId = b2.elementId := by rw [← hid]; exact hbe
        rw [hbb]
        exact List.mem_map_of_mem _ hb2))

theorem foldl_alignStep_apply (r0 : SchemaElem) {l : List ElementAndAlignment}
    {al : ElementAndAlignment} (hmem : al ∈ l)
    (hnd : (l.map ElementAndAlignment.elementId).Nodup)
    (hsome : (schemaGetById al.elementId r0).isSome = true)
    (d : SchemaData) (hid : d.id = al.elementId) :
    l.foldl (fun d al => alignStep r0 al d) d
      = { d with alignment := some ⟨al.newAlignment.x, al.newAlignment.y⟩ } := by
  obtain ⟨l1, l2, rfl⟩ := List.append_of_mem hmem
  rw [List.map_append, List.map_cons, List.nodup_append] at hnd
  rw [List.foldl_append, List.foldl_cons]
  rw [foldl_alignStep_skip r0 l1 d
    (fun a2 ha2 hae => hnd.2.2 (List.mem_map_of_mem _ ha2)
      (by rw [← hae, hid]; exact List.mem_cons_self _ _))]
  have hstep : alignStep r0 al d
      = { d with alignment := some ⟨al.newAlignment.x, al.newAlignment.y⟩ } := by
    unfold alignStep
    rw [if_pos hsome, if_pos hid]
  rw [hstep]
  exact foldl_alignStep_skip r0 l2 _
    (fun a2 ha2 hae => (List.nodup_cons.mp hnd.2.1).1
      (by
        have haa : al.elementId = a2.elementId := by rw [← hid]; exact hae
        rw [haa]
        exact List.mem_map_of_mem _ ha2))

theorem handleComputedBounds_eq (st : ServerState) (a : GAction)
    (h : st.needsServerLayout = false) :
    DiagramServer.handleComputedBounds st a
      = ⟨{ st with
            currentRoot := cbNewRoot st a,
            lastSubmittedModelType := some (cbNewRoot st a).data.type },
         if some (cbNewRoot st a).data.type = st.lastSubmittedModelType
         then [DispatchedAction.updateModel (cbNewRoot st a)]
         else [DispatchedAction.setModel (cbNewRoot st a)],
         false⟩ := by
  have hb : a.bounds.foldl
      (fun r b =>
        if (schemaGetById b.elementId st.currentRoot).isSome then
          applyBounds b.elementId b.newBounds r
        else r)
      st.currentRoot
      = RTree.mapData
          (fun d => a.bounds.foldl (fun d b => boundsStep st.currentRoot b d) d)
          st.currentRoot :=
    foldl_guard_mapData (fun b => (schemaGetById b.elementId st.currentRoot).isSome)
      (fun b d =>
        if d.id = b.elementId then
          { d with position := some ⟨b.newBounds.x, b.newBounds.y⟩,
                   size := some ⟨b.newBounds.width, b.newBounds.height⟩ }
        else d)
      a.bounds st.currentRoot
  unfold DiagramServer.handleComputedBounds
  rw [if_neg (by rw [h]; exact Bool.false_ne_true)]
  cases hals : a.alignments with
  | none =>
    dsimp only
    have hroot : a.bounds.foldl
        (fun r b =>
          if (schemaGetById b.elementId st.currentRoot).isSome then
            applyBounds b.elementId b.newBounds r
          else r)
        st.currentRoot = cbNewRoot st a := by
      rw [hb]
      unfold cbNewRoot cbFun
      rw [hals]
    rw [hroot]
  | some als =>
    dsimp only
    have ha : als.foldl
        (fun r al =>
          if (schemaGetById al.elementId st.currentRoot).isSome then
            applyAlignment al.elementId al.newAlignment r
          else r)
        (RTree.mapData
          (fun d => a.bounds.foldl (fun d b => boundsStep st.currentRoot b d) d)
          st.currentRoot)
        = RTree.mapData
            (fun d => als.foldl (fun d al => alignStep st.currentRoot al d) d)
            (RTree.mapData
              (fun d => a.bounds.foldl (fun d b => boundsStep st.currentRoot b d) d)
              st.currentRoot) :=
      foldl_guard_mapData (fun al => (schemaGetById al.elementId st.currentRoot).isSome)
        (fun al d =>
          if d.id = al.elementId then
            { d with alignment := some ⟨al.newAlignment.x, al.newAlignment.y⟩ }
          else d)
        als
        (RTree.mapData
          (fun d => a.bounds.foldl (fun d b => boundsStep st.currentRoot b d) d)
          st.currentRoot)
    have hroot : als.foldl
        (fun r al =>
          if (schemaGetById al.elementId st.currentRoot).isSome then
            applyAlignment al.elementId al.newAlignment r
          else r)
        (a.bounds.foldl
          (fun r b =>
            if (schemaGetById b.elementId st.currentRoot).isSome then
              applyBounds b.elementId b.newBounds r
            else r)
          st.currentRoot) = cbNewRoot st a := by
      rw [hb, ha, mapData_comp]
      unfold cbNewRoot cbFun
      rw [hals]
    rw [hroot]

theorem cbFun_id (st : ServerState) (a : GAction) (d : SchemaData) :
    (cbFun st a d).id = d.id := by
  unfold cbFun
  cases a.alignments with
  | none => exact (foldl_boundsStep_fields st.currentRoot a.bounds d).1
  | some als =>
    exact ((foldl_alignStep_fields st.currentRoot als _).1).trans
      ((foldl_boundsStep_fields st.currentRoot a.bounds d).1)

theorem cbFun_type (st : ServerState) (a : GAction) (d : SchemaData) :
    (cbFun st a d).type = d.type := by
  unfold cbFun
  cases a.alignments with
  | none => exact (foldl_boundsStep_fields st.currentRoot a.bounds d).2.1
  | some als =>
    exact ((foldl_alignStep_fields st.currentRoot als _).2.1).trans
      ((foldl_boundsStep_fields st.currentRoot a.bounds d).2.1)

theorem cbNewRoot_data_type (st : ServerState) (a : GAction) :
    (cbNewRoot st a).data.type = st.currentRoot.data.type := by
  unfold cbNewRoot
  rw [mapData_data]
  exact cbFun_type st a st.currentRoot.data

theorem cbNewRoot_getById (st : ServerState) (a : GAction) (k : String) :
    schemaGetById k (cbNewRoot st a)
      = (schemaGetById k st.currentRoot).map (RTree.mapData (cbFun st a)) := by
  unfold schemaGetById cbNewRoot
  exact getById_mapData_gen SchemaData.id (cbFun st a) (cbFun_id st a) k st.currentRoot

theorem cbFun_bounds_entry (st : ServerState) (a : GAction)
    {b : ElementAndBounds} (hbmem : b ∈ a.bounds)
    (hnd : (a.bounds.map ElementAndBounds.elementId).Nodup)
    (hsome : (schemaGetById b.elementId st.currentRoot).isSome = true)
    (d : SchemaData) (hid : d.id = b.elementId) :
    (cbFun st a d).position = some ⟨b.newBounds.x, b.newBounds.y⟩ ∧
    (cbFun st a d).size = some ⟨b.newBounds.width, b.newBounds.height⟩ := by
  unfold cbFun
  have hbf := foldl_boundsStep_apply st.currentRoot hbmem hnd hsome d hid
  cases a.alignments with
  | none =>
    rw [hbf]
    exact ⟨rfl, rfl⟩
  | some als =>
    rw [hbf]
    exact ⟨(foldl_alignStep_fields st.currentRoot als _).2.2.1,
      (foldl_alignStep_fields st.currentRoot als _).2.2.2⟩

theorem cbFun_align_entry (st : ServerState) (a : GAction)
    {als : List ElementAndAlignment} (hals : a.alignments = some als)
    {al : ElementAndAlignment} (halmem : al ∈ als)
    (hnd : (als.map ElementAndAlignment.elementId).Nodup)
    (hsome : (schemaGetById al.elementId st.currentRoot).isSome = true)
    (d : SchemaData) (hid : d.id = al.elementId) :
    (cbFun st a d).alignment = some ⟨al.newAlignment.x, al.newAlignment.y⟩ := by
  unfold cbFun
  rw [hals]
  dsimp only
  have hbfid := (foldl_boundsStep_fields st.currentRoot a.bounds d).1
  have half := foldl_alignStep_apply st.currentRoot halmem hnd hsome
    (a.bounds.foldl (fun d b => boundsStep st.currentRoot b d) d) (hbfid.trans hid)
  rw [half]

/-- **C7**: when `needsServerLayout` is false, handling a `computedBounds`
action never forwards it; every bounds entry whose `elementId` resolves in the
index over `currentRoot` gets its element's `position` and `size` overwritten
with the entry's `newBounds` (and its `alignment` set when a resolving
alignment entry is present), entries that do not resolve are skipped without
aborting the batch (the conclusion holds for every resolving entry regardless
of misses elsewhere); afterwards an `updateModel` is dispatched when the
root's `type` equals `lastSubmittedModelType` and a `setModel` otherwise, and
`lastSubmittedModelType` is set to that type.  When `needsServerLayout` is
true the action is forwarded unchanged, with no local dispatch. -/
theorem diagramServer_computedBounds (st : ServerState) (a : GAction) :
    (st.needsServerLayout = true →
      DiagramServer.handleComputedBounds st a = ⟨st, [], true⟩) ∧
    (st.needsServerLayout = false →
      (DiagramServer.handleComputedBounds st a).forward = false ∧
      (DiagramServer.handleComputedBounds st a).state.lastSubmittedModelType
        = some st.currentRoot.data.type ∧
      (DiagramServer.handleComputedBounds st a).state.currentRoot.data.type
        = st.currentRoot.data.type ∧
      ((DiagramServer.handleComputedBounds st a).dispatched
        = if some st.currentRoot.data.type = st.lastSubmittedModelType
          then [DispatchedAction.updateModel
            (DiagramServer.handleComputedBounds st a).state.currentRoot]
          else [DispatchedAction.setModel
            (DiagramServer.handleComputedBounds st a).state.currentRoot]) ∧
      ((a.bounds.map ElementAndBounds.elementId).Nodup →
        ∀ b ∈ a.bounds, ∀ e, schemaGetById b.elementId st.currentRoot = some e →
          ∃ e2, schemaGetById b.elementId
              (DiagramServer.handleComputedBounds st a).state.currentRoot = some e2 ∧
            e2.data.position = some ⟨b.newBounds.x, b.newBounds.y⟩ ∧
            e2.data.size = some ⟨b.newBounds.width, b.newBounds.height⟩ ∧
            e2.data.type = e.data.type ∧ e2.data.id = e.data.id) ∧
      (∀ als, a.alignments = some als →
        (als.map ElementAndAlignment.elementId).Nodup →
        ∀ al ∈ als, ∀ e, schemaGetById al.elementId st.currentRoot = some e →
          ∃ e2, schemaGetById al.elementId
              (DiagramServer.handleComputedBounds st a).state.currentRoot = some e2 ∧
            e2.data.alignment = some ⟨al.newAlignment.x, al.newAlignment.y⟩ ∧
            e2.data.type = e.data.type ∧ e2.data.id = e.data.id)) := by
  constructor
  · intro h
    unfold DiagramServer.handleComputedBounds
    rw [if_pos h]
  · intro h
    rw [handleComputedBounds_eq st a h]
    dsimp only
    refine ⟨rfl, ?_, cbNewRoot_data_type st a, ?_, ?_, ?_⟩
    · rw [cbNewRoot_data_type]
    · rw [cbNewRoot_data_type]
    · intro hnd b hbmem e he
      have hid : e.data.id = b.elementId :=
        getById_id_gen SchemaData.id b.elementId st.currentRoot e he
      have hsome : (schemaGetById b.elementId st.currentRoot).isSome = true := by
        rw [he]
        rfl
      obtain ⟨hpos, hsize⟩ := cbFun_bounds_entry st a hbmem hnd hsome e.data hid
      exact ⟨RTree.mapData (cbFun st a) e,
        by rw [cbNewRoot_getById, he]; rfl,
        by rw [mapData_data]; exact hpos,
        by rw [mapData_data]; exact hsize,
        by rw [mapData_data]; exact cbFun_type st a e.data,
        by rw [mapData_data]; exact cbFun_id st a e.data⟩
    · intro als hals hnd al halmem e he
      have hid : e.data.id = al.elementId :=
        getById_id_gen SchemaData.id al.elementId st.currentRoot e he
      have hsome : (schemaGetById al.elementId st.currentRoot).isSome = true := by
        rw [he]
        rfl
      have halign := cbFun_align_entry st a hals halmem hnd hsome e.data hid
      exact ⟨RTree.mapData (cbFun st a) e,
        by rw [cbNewRoot_getById, he]; rfl,
        by rw [mapData_data]; exact halign,
        by rw [mapData_data]; exact cbFun_type st a e.data,
        by rw [mapData_data]; exact cbFun_id st a e.data⟩

/-- Witness for C7: on the concrete state (client-side layout, root with
children `n1`, `n2`) and the concrete `computedBounds` action, the action is
not forwarded, `n1` gets the new position and size, and `n2` the alignment. -/
theorem diagramServer_computedBounds_witness :
    testServerState.needsServerLayout = false ∧
    (DiagramServer.handleComputedBounds testServerState cbAction).forward = false ∧
    (∃ e2, schemaGetById "n1"
        (DiagramServer.handleComputedBounds testServerState cbAction).state.currentRoot
        = some e2 ∧
      e2.data.position = some ⟨1, 2⟩ ∧ e2.data.size = some ⟨3, 4⟩) ∧
    (∃ e3, schemaGetById "n2"
        (DiagramServer.handleComputedBounds testServerState cbAction).state.currentRoot
        = some e3 ∧
      e3.data.alignment = some ⟨5, 6⟩) := by
  have h := (diagramServer_computedBounds testServerState cbAction).2 rfl
  refine ⟨rfl, h.1, ?_, ?_⟩
  · obtain ⟨e2, he2, hpos, hsize, _, _⟩ :=
      h.2.2.2.2.1 (by decide) ⟨"n1", ⟨1, 2, 3, 4⟩⟩ (by decide)
        (schemaLeaf "node" "n1") rfl
    exact ⟨e2, he2, hpos, hsize⟩
  · obtain ⟨e3, he3, halign, _, _⟩ :=
      h.2.2.2.2.2 [⟨"n2", ⟨5, 6⟩⟩] rfl (by decide) ⟨"n2", ⟨5, 6⟩⟩ (by decide)
        (schemaLeaf "node" "n2") rfl
    exact ⟨e3, he3, halign⟩

/-- **C5**: `handle` sends an `ActionMessage` envelope carrying this
instance's `clientId` and the action to the authority exactly when
`handleLocally` returns true (otherwise nothing is sent), and for any action
kind outside the policy table (`computedBounds`, `requestBounds`, `export`,
`serverStatus`) `handleLocally` returns true exactly when the action is not
marked as received from the authority — so an authority-originated action is
never echoed back while a locally-originated action of the same kind is
forwarded. -/
theorem diagramServer_handle_echo (st : ServerState) (a : GAction) :
    ((DiagramServer.handle st a).sent
      = if (DiagramServer.handleLocally st a).2.2 then some ⟨st.clientId, a⟩ else none) ∧
    ((DiagramServer.handle st a).state = (DiagramServer.handleLocally st a).1) ∧
    ((DiagramServer.handle st a).dispatched = (DiagramServer.handleLocally st a).2.1) ∧
    (a.kind ∉ (["computedBounds", "requestBounds", "export", "serverStatus"] : List String) →
      (DiagramServer.handleLocally st a).2.2 = !a.receivedFromServer) := by
  refine ⟨?_, ?_, ?_, ?_⟩
  · cases hb : (DiagramServer.handleLocally st a).2.2 <;>
      simp [DiagramServer.handle, hb]
  · cases hb : (DiagramServer.handleLocally st a).2.2 <;>
      simp [DiagramServer.handle, hb]
  · cases hb : (DiagramServer.handleLocally st a).2.2 <;>
      simp [DiagramServer.handle, hb]
  · intro h
    simp only [List.mem_cons, List.not_mem_nil, or_false, not_or] at h
    obtain ⟨h1, h2, h3, h4⟩ := h
    simp only [DiagramServer.handleLocally]
    rw [if_neg h1, if_neg h2, if_neg h3, if_neg h4]

/-- Witness for C5: a locally-originated `elementSelected` action (a kind
outside the policy table) is forwarded. -/
theorem diagramServer_handle_echo_witness :
    plainAction.kind ∉ (["computedBounds", "requestBounds", "export", "serverStatus"] : List String) ∧
    (DiagramServer.handleLocally testServerState plainAction).2.2 = !plainAction.receivedFromServer :=
  ⟨by decide,
   (diagramServer_handle_echo testServerState plainAction).2.2.2 (by decide)⟩

/-- **C6**: `messageReceived` dispatches the contained action into the local
pipeline — marked as received from the authority, with the `storeNewModel`
hook installed — exactly when the payload passes the code's conformance check
(`isActionMessage` with a truthy `action`) and its `clientId` is falsy or
equal to this instance's `clientId`; a conforming envelope with a different
truthy `clientId` is discarded silently, and a non-conforming payload is
logged as an error and discarded. -/
theorem diagramServer_messageReceived_cases (st : ServerState) (p : Payload) :
    (∀ a, actionTruthy p = some a → isActionMessage p = true →
      (clientIdFalsy p.clientIdField || p.clientIdField = some st.clientId) = true →
      DiagramServer.messageReceived st p
        = ⟨some { a with receivedFromServer := true }, true, false⟩) ∧
    (∀ a, actionTruthy p = some a → isActionMessage p = true →
      (clientIdFalsy p.clientIdField || p.clientIdField = some st.clientId) = false →
      DiagramServer.messageReceived st p = ⟨none, false, false⟩) ∧
    ((actionTruthy p = none ∨ isActionMessage p = false) →
      DiagramServer.messageReceived st p = ⟨none, false, true⟩) := by
  refine ⟨?_, ?_, ?_⟩
  · intro a h1 h2 h3
    unfold DiagramServer.messageReceived
    rw [h1, h2]
    simp [h3]
  · intro a h1 h2 h3
    unfold DiagramServer.messageReceived
    rw [h1, h2]
    simp [h3]
  · intro h
    unfold DiagramServer.messageReceived
    rcases h with h | h
    · rw [h]
    · rw [h]
      cases h1 : actionTruthy p <;> rfl

/-- Witness for C6: a conforming envelope from a different client
(`"other"` vs `"client1"`) is silently discarded. -/
theorem diagramServer_messageReceived_cases_witness :
    DiagramServer.messageReceived testServerState otherClientPayload = ⟨none, false, false⟩ :=
  (diagramServer_messageReceived_cases testServerState otherClientPayload).2.1
    plainAction rfl rfl (by decide)

/-- **C8**: `registerCommand` with a constructor that has an own `KIND`
property appends a `CommandActionHandler` binding for that kind, leaving all
existing bindings untouched; with a constructor lacking the property it
appends the error message (with the source's double space) to the log,
performs no registration, and — being a total function — does not throw. -/
theorem registerCommand_spec (reg : ActionHandlerRegistry) (ct : CommandType) :
    (∀ k, ct.KIND = some k →
      ActionHandlerRegistry.registerCommand reg ct
        = { reg with elements := reg.elements ++ [(k, .commandActionHandler ct.name)] }) ∧
    (ct.KIND = none →
      ActionHandlerRegistry.registerCommand reg ct
        = { reg with
            errors := reg.errors ++ ["Command " ++ ct.name ++ "  does not have a KIND property"] }) := by
  constructor
  · intro k hk
    unfold ActionHandlerRegistry.registerCommand
    rw [hk]
    rfl
  · intro hk
    unfold ActionHandlerRegistry.registerCommand
    rw [hk]

/-- Witness for C8: registering a constructor with `KIND = "elementSelected"`
on the empty registry appends exactly that binding. -/
theorem registerCommand_spec_witness :
    goodCommandType.KIND = some "elementSelected" ∧
    ActionHandlerRegistry.registerCommand emptyRegistry goodCommandType
      = { emptyRegistry with
          elements := emptyRegistry.elements
            ++ [("elementSelected", .commandActionHandler "SelectCommand")] } :=
  ⟨rfl, (registerCommand_spec emptyRegistry goodCommandType).1 "elementSelected" rfl⟩

/-- **C10**: `storeNewModel` replaces `currentRoot` and stores the new root
for `setModel`, `updateModel` and `requestBounds` actions carrying a
`newRoot`; it updates `lastSubmittedModelType` only for `setModel` and
`updateModel` (a `requestBounds` action leaves it unchanged); any action of
another kind, or one of these kinds without a `newRoot`, changes nothing.
`handleLocally` runs it first on every action (shown here for every kind
other than `computedBounds`, whose handler may update the state further). -/
theorem storeNewModel_spec (st : ServerState) (a : GAction) :
    (∀ r, a.newRoot = some r → (a.kind = "setModel" ∨ a.kind = "updateModel") →
      DiagramServer.storeNewModel st a
        = { st with
            currentRoot := r,
            lastSubmittedModelType := some r.data.type,
            storedRoots := st.storedRoots ++ [r] }) ∧
    (∀ r, a.newRoot = some r → a.kind = "requestBounds" →
      DiagramServer.storeNewModel st a
        = { st with
            currentRoot := r,
            storedRoots := st.storedRoots ++ [r] }) ∧
    (a.newRoot = none → DiagramServer.storeNewModel st a = st) ∧
    (¬a.kind = "setModel" → ¬a.kind = "updateModel" → ¬a.kind = "requestBounds" →
      DiagramServer.storeNewModel st a = st) ∧
    (¬a.kind = "computedBounds" →
      (DiagramServer.handleLocally st a).1 = DiagramServer.storeNewModel st a) := by
  refine ⟨?_, ?_, ?_, ?_, ?_⟩
  · intro r hr hk
    unfold DiagramServer.storeNewModel
    rcases hk with hk | hk <;> rw [hk, hr] <;> rfl
  · intro r hr hk
    unfold DiagramServer.storeNewModel
    rw [hk, hr]
    rfl
  · intro hr
    unfold DiagramServer.storeNewModel
    rw [hr]
    split <;> rfl
  · intro h1 h2 h3
    unfold DiagramServer.storeNewModel
    rw [if_neg (by simp [h1, h2, h3])]
  · intro hc
    simp only [DiagramServer.handleLocally]
    rw [if_neg hc]
    split
    · rfl
    · split
      · rfl
      · split <;> rfl

/-- Witness for C10: a `setModel` action carrying `schemaRoot1` replaces the
current root, updates the last submitted type and stores the root. -/
theorem storeNewModel_spec_witness :
    setModelAction.newRoot = some schemaRoot1 ∧
    DiagramServer.storeNewModel testServerState setModelAction
      = { testServerState with
          currentRoot := schemaRoot1,
          lastSubmittedModelType := some "graph",
          storedRoots := testServerState.storedRoots ++ [schemaRoot1] } :=
  ⟨rfl, (storeNewModel_spec testServerState setModelAction).1 schemaRoot1 rfl (Or.inl rfl)⟩
